import Mathlib

/-!
Verification of the Peer-Drop signaling hub and chunked transfer protocol.

The definitions below are a shallow embedding of the program:
* `src/internal/signaling/{hub,room,client,messages}.go` — hub state, rooms,
  directed relay, room codes;
* `src/web/static/js/websocket.js` — reconnect backoff state machine;
* `src/web/static/js/file-transfer.js` — direct-path chunking and
  relay-path envelope protocol, sender and receiver sides.

Machine integers of the source are modelled as `Nat` (sizes, indices never
overflow 53-bit JS integers in the claims considered) and the JavaScript
float `reconnectDelay` as `ℚ` (all values reached are exactly representable
binary rationals, so `ℚ` arithmetic coincides with the source's doubles).
-/

namespace PeerDrop

/-! ### Reconnect backoff — src/web/static/js/websocket.js

The `WebSocketManager` fields that govern reconnection are
`reconnectAttempts`, `reconnectDelay` and `maxReconnectAttempts`.
`ws.onopen` resets counter and delay; `ws.onclose` schedules one reconnect
attempt after the current delay (when the attempt budget is not exhausted)
and then multiplies the delay by 1.5 with a 30000 ms cap. -/

structure WSState where
  reconnectAttempts : Nat
  reconnectDelay : ℚ
  maxReconnectAttempts : Nat
  deriving DecidableEq, Repr

/-- Constructor state: `reconnectAttempts = 0`, `reconnectDelay = 1000`,
`maxReconnectAttempts = 10`. -/
def wsInit : WSState := ⟨0, 1000, 10⟩

/-- `ws.onopen`: `reconnectAttempts = 0; reconnectDelay = 1000`. -/
def wsOnOpen (s : WSState) : WSState :=
  { s with reconnectAttempts := 0, reconnectDelay := 1000 }

/-- `ws.onclose`: when `reconnectAttempts < maxReconnectAttempts`, schedule a
reconnect after the current `reconnectDelay` (the callback increments the
counter when it fires) and set
`reconnectDelay = min(reconnectDelay * 1.5, 30000)`.  Returns the scheduled
delay with the successor state, or `none` when retrying has stopped. -/
def wsOnClose (s : WSState) : Option (ℚ × WSState) :=
  if s.reconnectAttempts < s.maxReconnectAttempts then
    some (s.reconnectDelay,
      ⟨s.reconnectAttempts + 1, min (s.reconnectDelay * (3 / 2)) 30000,
        s.maxReconnectAttempts⟩)
  else none

/-- State after `n` consecutive failed connection attempts of a fresh manager
(each failure fires `ws.onclose`; the scheduled attempt fails again). -/
def afterCloses : Nat → WSState
  | 0 => wsInit
  | n + 1 =>
    match wsOnClose (afterCloses n) with
    | some p => p.2
    | none => afterCloses n

/-- Delay scheduled before the k-th consecutive reconnect attempt, `none` when
no attempt is scheduled. -/
def kthDelay (k : Nat) : Option ℚ :=
  (wsOnClose (afterCloses (k - 1))).map Prod.fst

lemma min_cap_mul (a : ℚ) :
    min (min a 30000 * (3 / 2)) 30000 = min (a * (3 / 2)) 30000 := by
  rcases le_total a 30000 with h | h
  · simp [min_eq_left h]
  · have h1 : (30000 : ℚ) * (3 / 2) ≤ a * (3 / 2) := by nlinarith
    have h2 : (30000 : ℚ) ≤ 30000 * (3 / 2) := by norm_num
    rw [min_eq_right h, min_eq_right (le_trans h2 h1), min_eq_right (by linarith)]

lemma afterCloses_succ (n : Nat) :
    afterCloses (n + 1) =
      match wsOnClose (afterCloses n) with
      | some p => p.2
      | none => afterCloses n := rfl

lemma wsOnClose_of_lt {s : WSState}
    (h : s.reconnectAttempts < s.maxReconnectAttempts) :
    wsOnClose s = some (s.reconnectDelay,
      ⟨s.reconnectAttempts + 1, min (s.reconnectDelay * (3 / 2)) 30000,
        s.maxReconnectAttempts⟩) := by
  simp only [wsOnClose, if_pos h]

lemma wsOnClose_of_ge {s : WSState}
    (h : ¬ s.reconnectAttempts < s.maxReconnectAttempts) :
    wsOnClose s = none := by
  simp only [wsOnClose, if_neg h]

lemma afterCloses_max (n : Nat) : (afterCloses n).maxReconnectAttempts = 10 := by
  induction n with
  | zero => rfl
  | succ n ih =>
    rw [afterCloses_succ]
    by_cases h : (afterCloses n).reconnectAttempts < (afterCloses n).maxReconnectAttempts
    · rw [wsOnClose_of_lt h]
      exact ih
    · rw [wsOnClose_of_ge h]
      exact ih

lemma afterCloses_spec (n : Nat) (hn : n ≤ 10) :
    (afterCloses n).reconnectAttempts = n ∧
    (afterCloses n).reconnectDelay = min (1000 * (3 / 2) ^ n) 30000 := by
  induction n with
  | zero =>
    refine ⟨rfl, ?_⟩
    show (1000 : ℚ) = min (1000 * (3 / 2) ^ 0) 30000
    norm_num
  | succ n ih =>
    have hn' : n ≤ 10 := Nat.le_of_succ_le hn
    obtain ⟨ha, hd⟩ := ih hn'
    have hlt : (afterCloses n).reconnectAttempts < (afterCloses n).maxReconnectAttempts := by
      rw [ha, afterCloses_max]; omega
    rw [afterCloses_succ, wsOnClose_of_lt hlt]
    refine ⟨by simp [ha], ?_⟩
    show min ((afterCloses n).reconnectDelay * (3 / 2)) 30000 = _
    rw [hd, min_cap_mul]
    congr 1
    ring

lemma afterCloses_stable (n : Nat) (hn : 10 ≤ n) : afterCloses n = afterCloses 10 := by
  induction n with
  | zero => omega
  | succ n ih =>
    rcases Nat.lt_or_ge n 10 with h | h
    · have h10 : n + 1 = 10 := by omega
      rw [h10]
    · have hstop : ¬ (afterCloses n).reconnectAttempts <
          (afterCloses n).maxReconnectAttempts := by
        rw [ih h, (afterCloses_spec 10 le_rfl).1, afterCloses_max]
        omega
      rw [afterCloses_succ, wsOnClose_of_ge hstop, ih h]

/-- C8: the delay before the k-th consecutive reconnect attempt equals
`min (1000 * 1.5^(k-1)) 30000` milliseconds (hence nondecreasing in `k` and
capped at 30000 ms); a successful connect resets delay and counter; and after
10 consecutive attempts no further attempt is scheduled. -/
theorem reconnect_backoff_spec :
    (∀ k : Nat, 1 ≤ k → k ≤ 10 →
      kthDelay k = some (min (1000 * (3 / 2) ^ (k - 1)) 30000)) ∧
    (∀ j k : Nat, 1 ≤ j → j ≤ k → k ≤ 10 →
      ∀ dj dk : ℚ, kthDelay j = some dj → kthDelay k = some dk → dj ≤ dk) ∧
    (∀ k d, kthDelay k = some d → d ≤ 30000) ∧
    (∀ s : WSState, (wsOnOpen s).reconnectDelay = 1000 ∧
      (wsOnOpen s).reconnectAttempts = 0) ∧
    wsOnClose (afterCloses 10) = none := by
  have hdelay : ∀ k : Nat, 1 ≤ k → k ≤ 10 →
      kthDelay k = some (min (1000 * (3 / 2) ^ (k - 1)) 30000) := by
    intro k hk1 hk10
    obtain ⟨ha, hd⟩ := afterCloses_spec (k - 1) (by omega)
    have hlt : (afterCloses (k - 1)).reconnectAttempts <
        (afterCloses (k - 1)).maxReconnectAttempts := by
      rw [ha, afterCloses_max]; omega
    rw [kthDelay, wsOnClose_of_lt hlt]
    simp [hd]
  refine ⟨hdelay, ?_, ?_, ?_, ?_⟩
  · intro j k hj1 hjk hk10 dj dk hdj hdk
    rw [hdelay j hj1 (le_trans hjk hk10)] at hdj
    rw [hdelay k (le_trans hj1 hjk) hk10] at hdk
    cases hdj; cases hdk
    have hmono : (1000 : ℚ) * (3 / 2) ^ (j - 1) ≤ 1000 * (3 / 2) ^ (k - 1) := by
      have := pow_le_pow_right₀ (by norm_num : (1 : ℚ) ≤ 3 / 2) (by omega : j - 1 ≤ k - 1)
      nlinarith
    exact min_le_min hmono le_rfl
  · intro k d hd
    rw [kthDelay] at hd
    rcases le_or_lt (k - 1) 10 with hk | hk
    · by_cases hlt : (afterCloses (k - 1)).reconnectAttempts <
          (afterCloses (k - 1)).maxReconnectAttempts
      · rw [wsOnClose_of_lt hlt] at hd
        simp only [Option.map_some'] at hd
        cases hd
        obtain ⟨-, hdel⟩ := afterCloses_spec (k - 1) hk
        rw [hdel]
        exact min_le_right _ _
      · rw [wsOnClose_of_ge hlt] at hd
        cases hd
    · have hstab : afterCloses (k - 1) = afterCloses 10 :=
        afterCloses_stable _ (le_of_lt hk)
      have hstop : ¬ (afterCloses (k - 1)).reconnectAttempts <
          (afterCloses (k - 1)).maxReconnectAttempts := by
        rw [hstab, (afterCloses_spec 10 le_rfl).1, afterCloses_max]
        omega
      rw [wsOnClose_of_ge hstop] at hd
      cases hd
  · intro s; exact ⟨rfl, rfl⟩
  · refine wsOnClose_of_ge ?_
    rw [(afterCloses_spec 10 le_rfl).1, afterCloses_max]
    omega

/-- Witness for `reconnect_backoff_spec`: the third attempt is scheduled after
exactly 2250 ms. -/
theorem reconnect_backoff_spec_witness :
    kthDelay 3 = some 2250 := by
  have h := reconnect_backoff_spec.1 3 (by norm_num) (by norm_num)
  rw [h]
  norm_num

/-! ### Peer info — src/internal/signaling/client.go `PeerInfo` and
src/internal/signaling/messages.go

A `Client` carries `id`, `name`, `platform` and the originating network
address `ip`; `PeerInfo()` projects out only `id`, `name`, `platform`.
The hub builds `peers`, `peer-joined` and `room-joined` payloads exclusively
from `PeerInfo()` records of room members. -/

structure GoClient where
  id : String
  name : String
  platform : String
  ip : String
  deriving DecidableEq, Repr

/-- Wire-facing peer record (messages.go `PeerInfo`). -/
structure WirePeerInfo where
  id : String
  name : String
  platform : String
  deriving DecidableEq, Repr

/-- client.go `PeerInfo()`. -/
def peerInfoOf (c : GoClient) : WirePeerInfo :=
  ⟨c.id, c.name, c.platform⟩

/-- room.go `GetPeerInfos`: peer records of all members except `excludeID`;
this is the payload of a `peers` message and the peer list inside
`room-joined`. -/
def peerInfosOf (room : List GoClient) (excludeID : String) : List WirePeerInfo :=
  room.filterMap (fun c => if c.id = excludeID then none else some (peerInfoOf c))

/-- Payload of a `peer-joined` message for client `c`. -/
def peerJoinedPayloadOf (c : GoClient) : WirePeerInfo := peerInfoOf c

/-- Payload of a `room-joined` message: the room code and the peer list. -/
def roomJoinedPayloadOf (code : String) (room : List GoClient) (excludeID : String) :
    String × List WirePeerInfo :=
  (code, peerInfosOf room excludeID)

/-- Two clients that agree on every field except possibly the network
address. -/
def SameExceptIp (a b : GoClient) : Prop :=
  a.id = b.id ∧ a.name = b.name ∧ a.platform = b.platform

lemma peerInfoOf_sameExceptIp {a b : GoClient} (h : SameExceptIp a b) :
    peerInfoOf a = peerInfoOf b := by
  obtain ⟨h1, h2, h3⟩ := h
  simp [peerInfoOf, h1, h2, h3]

lemma peerInfosOf_sameExceptIp {r1 r2 : List GoClient}
    (h : List.Forall₂ SameExceptIp r1 r2) (ex : String) :
    peerInfosOf r1 ex = peerInfosOf r2 ex := by
  induction h with
  | nil => rfl
  | cons hab _ ih =>
    simp only [peerInfosOf, List.filterMap_cons] at ih ⊢
    rw [hab.1, peerInfoOf_sameExceptIp hab, ih]

/-- C9: `PeerInfo()` is independent of the client's network address, and so
are the `peers`, `peer-joined` and `room-joined` payloads the hub derives
from it: replacing every member's address leaves all three unchanged. -/
theorem peer_info_excludes_address :
    (∀ a b : GoClient, SameExceptIp a b → peerInfoOf a = peerInfoOf b) ∧
    (∀ r1 r2 : List GoClient, List.Forall₂ SameExceptIp r1 r2 → ∀ ex : String,
      peerInfosOf r1 ex = peerInfosOf r2 ex) ∧
    (∀ a b : GoClient, SameExceptIp a b →
      peerJoinedPayloadOf a = peerJoinedPayloadOf b) ∧
    (∀ r1 r2 : List GoClient, List.Forall₂ SameExceptIp r1 r2 →
      ∀ code ex, roomJoinedPayloadOf code r1 ex = roomJoinedPayloadOf code r2 ex) := by
  refine ⟨fun a b h => peerInfoOf_sameExceptIp h,
          fun r1 r2 h ex => peerInfosOf_sameExceptIp h ex,
          fun a b h => peerInfoOf_sameExceptIp h,
          fun r1 r2 h code ex => ?_⟩
  simp [roomJoinedPayloadOf, peerInfosOf_sameExceptIp h ex]

/-- Witness for `peer_info_excludes_address`: two copies of a client on
different addresses produce the same wire records. -/
theorem peer_info_excludes_address_witness :
    peerInfoOf ⟨"id1", "alice", "linux", "10.0.0.7"⟩ =
      peerInfoOf ⟨"id1", "alice", "linux", "192.168.1.9"⟩ :=
  peer_info_excludes_address.1 _ _ ⟨rfl, rfl, rfl⟩

/-! ### Directed relay — src/internal/signaling/client.go `relayToTarget` and
src/internal/signaling/room.go `RelayTo`

A signaling envelope is `{type, peerId, targetId, payload}` (messages.go
`Message`; absent JSON fields are the empty string / empty payload).
`relayToTarget` stamps the sender's id as `peerId`, then tries
`c.ipRoom.RelayTo` and, failing that, `c.publicRoom.RelayTo`; each `RelayTo`
looks the target id up in the room's member map and sends the stamped bytes
to that single member.  We model a room by its list of member ids and a
relay step by the list of `(recipient, envelope)` deliveries it performs. -/

structure WireMsg where
  type : String
  peerId : String
  targetId : String
  payload : String
  deriving DecidableEq, Repr

/-- Sender-side view of a connected client: its id and the member-id sets of
the rooms it belongs to (`nil` pointer = `none`). -/
structure RelayClient where
  id : String
  ipRoom : Option (List String)
  publicRoom : Option (List String)
  deriving DecidableEq, Repr

/-- room.go `RelayTo`: true when the room's member map contains `targetID`
(in which case the message is sent to exactly that member). -/
def roomRelayTo (members : List String) (targetID : String) : Bool :=
  members.contains targetID

/-- The message types client.go `handleMessage` hands to `relayToTarget`. -/
def relayableTypes : List String :=
  ["offer", "answer", "ice-candidate", "transfer-request", "transfer-response",
   "relay-chunk"]

/-- client.go `relayToTarget`: the list of `(recipient, envelope)` deliveries.
Empty target: drop.  Otherwise stamp `peerId := c.id` and deliver to the
target in the IP room if present there, else in the public room if present
there, else to nobody (log only). -/
def relayToTarget (c : RelayClient) (msg : WireMsg) : List (String × WireMsg) :=
  if msg.targetId = "" then []
  else
    let stamped : WireMsg := { msg with peerId := c.id }
    match c.ipRoom with
    | some r =>
      if roomRelayTo r msg.targetId then [(msg.targetId, stamped)]
      else
        match c.publicRoom with
        | some r2 =>
          if roomRelayTo r2 msg.targetId then [(msg.targetId, stamped)] else []
        | none => []
    | none =>
      match c.publicRoom with
      | some r2 =>
        if roomRelayTo r2 msg.targetId then [(msg.targetId, stamped)] else []
      | none => []

/-- Membership of the target in an optional room (`nil` room has no member). -/
def optMember (room : Option (List String)) (t : String) : Bool :=
  match room with
  | some r => r.contains t
  | none => false

lemma relayToTarget_ip {c : RelayClient} {msg : WireMsg}
    (ht : msg.targetId ≠ "") (hm : optMember c.ipRoom msg.targetId = true) :
    relayToTarget c msg = [(msg.targetId, { msg with peerId := c.id })] := by
  rcases c with ⟨cid, ipr, pr⟩
  cases ipr with
  | none => simp [optMember] at hm
  | some r =>
    have hm' : msg.targetId ∈ r := by simpa [optMember] using hm
    simp [relayToTarget, roomRelayTo, ht, hm']

lemma relayToTarget_public {c : RelayClient} {msg : WireMsg}
    (ht : msg.targetId ≠ "") (hip : optMember c.ipRoom msg.targetId = false)
    (hm : optMember c.publicRoom msg.targetId = true) :
    relayToTarget c msg = [(msg.targetId, { msg with peerId := c.id })] := by
  rcases c with ⟨cid, ipr, pr⟩
  cases pr with
  | none => simp [optMember] at hm
  | some r2 =>
    have hm' : msg.targetId ∈ r2 := by simpa [optMember] using hm
    cases ipr with
    | none => simp [relayToTarget, roomRelayTo, ht, hm']
    | some r =>
      have hip' : msg.targetId ∉ r := by simpa [optMember] using hip
      simp [relayToTarget, roomRelayTo, ht, hip', hm']

lemma relayToTarget_none {c : RelayClient} {msg : WireMsg}
    (hip : optMember c.ipRoom msg.targetId = false)
    (hm : optMember c.publicRoom msg.targetId = false) :
    relayToTarget c msg = [] := by
  rcases c with ⟨cid, ipr, pr⟩
  by_cases ht : msg.targetId = ""
  · simp [relayToTarget, ht]
  · cases ipr with
    | none =>
      cases pr with
      | none => simp [relayToTarget, ht]
      | some r2 =>
        have hm' : msg.targetId ∉ r2 := by simpa [optMember] using hm
        simp [relayToTarget, roomRelayTo, ht, hm']
    | some r =>
      have hip' : msg.targetId ∉ r := by simpa [optMember] using hip
      cases pr with
      | none => simp [relayToTarget, roomRelayTo, ht, hip']
      | some r2 =>
        have hm' : msg.targetId ∉ r2 := by simpa [optMember] using hm
        simp [relayToTarget, roomRelayTo, ht, hip', hm']

/-- C1: for a connected session with a nonempty target id and a relayable
message, the directed relay searches the sender's IP room first, then its
coded room; it delivers to exactly the member with the target id and to no
other session, and to nobody when neither room contains the target; every
delivered envelope has the sender's id stamped as `peerId` and the payload
unchanged. -/
theorem relay_directed_delivery (c : RelayClient) (msg : WireMsg)
    (_hrel : msg.type ∈ relayableTypes) (ht : msg.targetId ≠ "") :
    (∀ p ∈ relayToTarget c msg,
      p.1 = msg.targetId ∧ p.2.peerId = c.id ∧ p.2.payload = msg.payload ∧
        p.2.type = msg.type) ∧
    (relayToTarget c msg).length ≤ 1 ∧
    (optMember c.ipRoom msg.targetId = true →
      relayToTarget c msg = [(msg.targetId, { msg with peerId := c.id })]) ∧
    (optMember c.ipRoom msg.targetId = false →
      optMember c.publicRoom msg.targetId = true →
      relayToTarget c msg = [(msg.targetId, { msg with peerId := c.id })]) ∧
    (optMember c.ipRoom msg.targetId = false →
      optMember c.publicRoom msg.targetId = false →
      relayToTarget c msg = []) := by
  have hdeliv : ∀ p ∈ relayToTarget c msg,
      p.1 = msg.targetId ∧ p.2.peerId = c.id ∧ p.2.payload = msg.payload ∧
        p.2.type = msg.type := by
    intro p hp
    rcases hip : optMember c.ipRoom msg.targetId with _ | _
    · rcases hpub : optMember c.publicRoom msg.targetId with _ | _
      · rw [relayToTarget_none hip hpub] at hp
        cases hp
      · rw [relayToTarget_public ht hip hpub, List.mem_singleton] at hp
        subst hp
        exact ⟨rfl, rfl, rfl, rfl⟩
    · rw [relayToTarget_ip ht hip, List.mem_singleton] at hp
      subst hp
      exact ⟨rfl, rfl, rfl, rfl⟩
  have hlen : (relayToTarget c msg).length ≤ 1 := by
    rcases hip : optMember c.ipRoom msg.targetId with _ | _
    · rcases hpub : optMember c.publicRoom msg.targetId with _ | _
      · rw [relayToTarget_none hip hpub]; simp
      · rw [relayToTarget_public ht hip hpub]; simp
    · rw [relayToTarget_ip ht hip]; simp
  exact ⟨hdeliv, hlen, fun h => relayToTarget_ip ht h,
    fun h1 h2 => relayToTarget_public ht h1 h2,
    fun h1 h2 => relayToTarget_none h1 h2⟩

/-- Witness for `relay_directed_delivery`: a sender whose IP room contains the
target delivers one stamped offer to it. -/
theorem relay_directed_delivery_witness :
    relayToTarget ⟨"a", some ["a", "b"], none⟩ ⟨"offer", "", "b", "sdp"⟩ =
      [("b", ⟨"offer", "a", "b", "sdp"⟩)] := by
  have h := relay_directed_delivery ⟨"a", some ["a", "b"], none⟩
    ⟨"offer", "", "b", "sdp"⟩ (by decide) (by decide)
  exact h.2.2.1 (by decide)

/-! ### Room codes — src/internal/signaling/room.go `GenerateRoomCode` and
src/internal/signaling/hub.go `CreatePublicRoom`

`GenerateRoomCode` draws 5 random bytes and maps each into a fixed
32-character alphabet; `CreatePublicRoom` loops until the generated code is
not a key of the live coded-room table.  The randomness is modelled as an
explicit stream of 5-byte draws; the generation loop consumes draws until
one yields a fresh code (`none` when the finite stream is exhausted, which
the source's unbounded loop never observes). -/

def roomCodeCharset : List Char := "ABCDEFGHJKLMNPQRSTUVWXYZ23456789".toList

lemma roomCodeCharset_length : roomCodeCharset.length = 32 := by decide

/-- room.go `GenerateRoomCode` applied to the 5 random bytes `b`:
`b[i] = charset[int(b[i]) % len(charset)]`. -/
def generateRoomCode (b : Fin 5 → Nat) : List Char :=
  (List.finRange 5).map fun i =>
    roomCodeCharset.get ⟨b i % 32, by
      rw [roomCodeCharset_length]
      exact Nat.mod_lt _ (by norm_num)⟩

/-- hub.go `CreatePublicRoom` code-allocation loop: keep generating until the
code is not among the live coded-room codes. -/
def freshRoomCode (draws : List (Fin 5 → Nat)) (live : List (List Char)) :
    Option (List Char) :=
  match draws with
  | [] => none
  | d :: rest =>
    let code := generateRoomCode d
    if code ∈ live then freshRoomCode rest live else some code

lemma generateRoomCode_length (b : Fin 5 → Nat) :
    (generateRoomCode b).length = 5 := by
  simp [generateRoomCode]

lemma generateRoomCode_mem_charset (b : Fin 5 → Nat) :
    ∀ ch ∈ generateRoomCode b, ch ∈ roomCodeCharset := by
  intro ch hch
  simp only [generateRoomCode, List.mem_map] at hch
  obtain ⟨i, -, hi⟩ := hch
  rw [← hi]
  exact List.get_mem _ _ _

lemma freshRoomCode_spec (draws : List (Fin 5 → Nat)) (live : List (List Char))
    (code : List Char) (h : freshRoomCode draws live = some code) :
    code ∉ live ∧ ∃ d, code = generateRoomCode d := by
  induction draws with
  | nil => cases h
  | cons d rest ih =>
    rw [freshRoomCode] at h
    by_cases hc : generateRoomCode d ∈ live
    · rw [if_pos hc] at h
      exact ih h
    · rw [if_neg hc] at h
      cases h
      exact ⟨hc, d, rfl⟩

/-- C4: `GenerateRoomCode` always returns 5 characters drawn from the
32-character alphabet `ABCDEFGHJKLMNPQRSTUVWXYZ23456789`, and the code
`CreatePublicRoom` allocates differs from the code of every coded room live
at the moment of creation. -/
theorem room_code_fresh (b : Fin 5 → Nat) (draws : List (Fin 5 → Nat))
    (live : List (List Char)) (code : List Char)
    (h : freshRoomCode draws live = some code) :
    (generateRoomCode b).length = 5 ∧
    (∀ ch ∈ generateRoomCode b, ch ∈ roomCodeCharset) ∧
    roomCodeCharset = "ABCDEFGHJKLMNPQRSTUVWXYZ23456789".toList ∧
    code ∉ live ∧ code.length = 5 ∧ ∀ ch ∈ code, ch ∈ roomCodeCharset := by
  obtain ⟨hfresh, d, hd⟩ := freshRoomCode_spec draws live code h
  refine ⟨generateRoomCode_length b, generateRoomCode_mem_charset b, rfl,
    hfresh, ?_, ?_⟩
  · rw [hd]
    exact generateRoomCode_length d
  · rw [hd]
    exact generateRoomCode_mem_charset d

/-- Witness for `room_code_fresh`: with the live code `"AB12C"` occupied, a
draw of five zero bytes yields the distinct fresh code `"AAAAA"`. -/
theorem room_code_fresh_witness :
    freshRoomCode [fun _ => 0] ["AB12C".toList] = some "AAAAA".toList ∧
    "AAAAA".toList ∉ ["AB12C".toList] := by
  refine ⟨by decide, ?_⟩
  exact (room_code_fresh (fun _ => 0) [fun _ => 0] ["AB12C".toList]
    "AAAAA".toList (by decide)).2.2.2.1

/-! ### Hub state — src/internal/signaling/hub.go

The hub owns Go maps `ipRooms`, `publicRooms`, `clients` and each client
carries `ipRoom` / `publicRoom` pointers.  Maps are modelled as association
lists (`mapGet`/`mapSet`/`mapDel`), a room by its member-id list, and the
room pointers by the referenced room's key (`ipRef` / `pubRef`); the one
place where the pointer/key distinction is observable — `JoinPublicRoom`
re-adding a client to a room object that was just deleted from the table —
is modelled by updating the table entry only while it is still present. -/

def mapGet {α β : Type} [DecidableEq α] : List (α × β) → α → Option β
  | [], _ => none
  | e :: rest, k => if e.1 = k then some e.2 else mapGet rest k

def mapDel {α β : Type} [DecidableEq α] : List (α × β) → α → List (α × β)
  | [], _ => []
  | e :: rest, k => if e.1 = k then mapDel rest k else e :: mapDel rest k

def mapSet {α β : Type} [DecidableEq α] (m : List (α × β)) (k : α) (v : β) :
    List (α × β) :=
  (k, v) :: mapDel m k

lemma mapGet_del {α β : Type} [DecidableEq α] (m : List (α × β)) (k k' : α) :
    mapGet (mapDel m k) k' = if k' = k then none else mapGet m k' := by
  induction m with
  | nil => simp [mapDel, mapGet]
  | cons e rest ih =>
    by_cases h1 : e.1 = k
    · by_cases h2 : k' = k
      · subst h2
        simp [mapDel, h1, ih]
      · have h3 : k ≠ k' := fun hh => h2 hh.symm
        simp [mapDel, mapGet, h1, h2, h3, ih]
    · by_cases h2 : e.1 = k'
      · have h3 : k' ≠ k := fun hh => h1 (h2.trans hh)
        simp [mapDel, mapGet, h1, h2, h3, ih]
      · simp [mapDel, mapGet, h1, h2, ih]

lemma mapGet_set {α β : Type} [DecidableEq α] (m : List (α × β)) (k : α) (v : β)
    (k' : α) :
    mapGet (mapSet m k v) k' = if k' = k then some v else mapGet m k' := by
  rw [mapSet, mapGet]
  by_cases h : k' = k
  · rw [if_pos h, if_pos h.symm]
  · rw [if_neg (fun hh => h hh.symm), if_neg h, mapGet_del, if_neg h]

lemma mapGet_eq_none_iff {α β : Type} [DecidableEq α] (m : List (α × β)) (k : α) :
    mapGet m k = none ↔ k ∉ m.map Prod.fst := by
  induction m with
  | nil => simp [mapGet]
  | cons e rest ih =>
    rw [mapGet]
    by_cases h : e.1 = k
    · simp [h]
    · simp only [if_neg h, ih, List.map_cons, List.mem_cons]
      constructor
      · intro hk hor
        rcases hor with hor | hor
        · exact h hor.symm
        · exact hk hor
      · intro hk
        exact fun hmem => hk (Or.inr hmem)

lemma mapDel_sublist {α β : Type} [DecidableEq α] (m : List (α × β)) (k : α) :
    (mapDel m k).Sublist m := by
  induction m with
  | nil => simp [mapDel]
  | cons e rest ih =>
    rw [mapDel]
    by_cases h : e.1 = k
    · rw [if_pos h]
      exact ih.cons e
    · rw [if_neg h]
      exact ih.cons₂ e

lemma keysNodup_del {α β : Type} [DecidableEq α] {m : List (α × β)} (k : α)
    (h : (m.map Prod.fst).Nodup) : ((mapDel m k).map Prod.fst).Nodup :=
  List.Nodup.sublist (List.Sublist.map Prod.fst (mapDel_sublist m k)) h

lemma keysNodup_set {α β : Type} [DecidableEq α] {m : List (α × β)} (k : α) (v : β)
    (h : (m.map Prod.fst).Nodup) : ((mapSet m k v).map Prod.fst).Nodup := by
  rw [mapSet, List.map_cons]
  refine List.Nodup.cons ?_ (keysNodup_del k h)
  intro hmem
  have hnone : mapGet (mapDel m k) k = none := by
    rw [mapGet_del, if_pos rfl]
  exact (mapGet_eq_none_iff _ _).mp hnone hmem

lemma mapGet_filter_of_nodup {α β : Type} [DecidableEq α] {m : List (α × β)}
    {p : α × β → Bool} {k : α} {v : β} (hnd : (m.map Prod.fst).Nodup)
    (h : mapGet (m.filter p) k = some v) :
    mapGet m k = some v ∧ p (k, v) = true := by
  induction m with
  | nil => simp [mapGet] at h
  | cons e rest ih =>
    rw [List.map_cons, List.nodup_cons] at hnd
    rw [List.filter_cons] at h
    by_cases hp : p e = true
    · rw [if_pos hp, mapGet] at h
      by_cases hk : e.1 = k
      · rw [if_pos hk] at h
        cases h
        have he : e = (k, e.2) := by
          rw [← hk]
        rw [mapGet, if_pos hk]
        exact ⟨rfl, he ▸ hp⟩
      · rw [if_neg hk] at h
        obtain ⟨h1, h2⟩ := ih hnd.2 h
        rw [mapGet, if_neg hk]
        exact ⟨h1, h2⟩
    · rw [if_neg hp] at h
      obtain ⟨h1, h2⟩ := ih hnd.2 h
      have hk : e.1 ≠ k := by
        intro hk
        have : k ∈ rest.map Prod.fst := by
          have : (mapGet rest k).isSome := by rw [h1]; rfl
          by_contra hmem
          rw [(mapGet_eq_none_iff rest k).mpr hmem] at this
          cases this
        exact hnd.1 (hk ▸ this)
      rw [mapGet, if_neg hk]
      exact ⟨h1, h2⟩

lemma mapGet_filter_of_true {α β : Type} [DecidableEq α] {m : List (α × β)}
    {p : α × β → Bool} {k : α} {v : β} (h : mapGet m k = some v)
    (hp : p (k, v) = true) : mapGet (m.filter p) k = some v := by
  induction m with
  | nil => simp [mapGet] at h
  | cons e rest ih =>
    rw [mapGet] at h
    rw [List.filter_cons]
    by_cases hk : e.1 = k
    · rw [if_pos hk] at h
      cases h
      have he : e = (k, e.2) := by rw [← hk]
      rw [if_pos (by rw [he]; exact hp), mapGet, if_pos hk]
    · rw [if_neg hk] at h
      by_cases hpe : p e = true
      · rw [if_pos hpe, mapGet, if_neg hk]
        exact ih h
      · rw [if_neg hpe]
        exact ih h

/-- Go map insert into a member set (`r.clients[client.id] = client`). -/
def addMember (l : List String) (c : String) : List String :=
  if c ∈ l then l else l ++ [c]

/-- Go map delete from a member set (`delete(r.clients, clientID)`). -/
def removeMember (l : List String) (c : String) : List String :=
  l.filter (fun x => decide (x ≠ c))

lemma mem_addMember {l : List String} {c x : String} :
    x ∈ addMember l c ↔ x ∈ l ∨ x = c := by
  rw [addMember]
  by_cases h : c ∈ l
  · rw [if_pos h]
    constructor
    · exact Or.inl
    · rintro (hx | hx)
      · exact hx
      · exact hx ▸ h
  · rw [if_neg h]
    simp

lemma mem_removeMember {l : List String} {c x : String} :
    x ∈ removeMember l c ↔ x ∈ l ∧ x ≠ c := by
  simp [removeMember]

/-- The hub tables: `ipRooms`, `publicRooms`, `clients`, together with each
client's `ipRoom` / `publicRoom` reference. -/
structure HubState where
  ipRooms : List (String × List String)
  publicRooms : List (List Char × List String)
  clients : List String
  ipRef : List (String × String)
  pubRef : List (String × List Char)
  deriving DecidableEq, Repr

def hubInit : HubState := ⟨[], [], [], [], []⟩

/-- Server-to-client messages, at the granularity of member ids (the peer
info carried along is handled by `peerInfoOf` above). -/
inductive HubMsg where
  | peers (ps : List String)
  | peerJoined (p : String)
  | peerLeft (p : String)
  | roomCreated (code : List Char)
  | roomJoined (code : List Char) (ps : List String)
  | roomError (e : String)
  deriving DecidableEq, Repr

/-- hub.go `JoinIPRoom`: create the IP room if absent, add the client, send
it the current peer list (excluding itself) and broadcast `peer-joined`. -/
def joinIPRoom (s : HubState) (c roomId : String) :
    HubState × List (String × HubMsg) :=
  let mem := (mapGet s.ipRooms roomId).getD []
  let mem' := addMember mem c
  let others := mem'.filter (fun x => decide (x ≠ c))
  ({ s with ipRooms := mapSet s.ipRooms roomId mem',
            ipRef := mapSet s.ipRef c roomId },
   (c, HubMsg.peers others) :: others.map (fun p => (p, HubMsg.peerJoined c)))

/-- hub.go `CreatePublicRoom` + client.go `handleCreateRoom`: allocate a
fresh code (drawing from `draws`), create the room with the client as sole
member, point the client at it, reply `room-created`.  The source's
generation loop cannot exhaust its randomness; an exhausted `draws` stream
is modelled as a no-op. -/
def createPublicRoom (s : HubState) (c : String) (draws : List (Fin 5 → Nat)) :
    HubState × List (String × HubMsg) :=
  match freshRoomCode draws (s.publicRooms.map Prod.fst) with
  | none => (s, [])
  | some code =>
    ({ s with publicRooms := mapSet s.publicRooms code [c],
              pubRef := mapSet s.pubRef c code },
     [(c, HubMsg.roomCreated code)])

/-- hub.go `LeavePublicRoom`: remove the client from its coded room,
broadcast `peer-left` to the remaining members, delete the room if emptied,
clear the client's reference. -/
def leavePublicRoom (s : HubState) (c : String) :
    HubState × List (String × HubMsg) :=
  match mapGet s.pubRef c with
  | none => (s, [])
  | some code =>
    let mem := (mapGet s.publicRooms code).getD []
    let mem' := removeMember mem c
    let rooms' :=
      if mem' = [] then mapDel s.publicRooms code
      else mapSet s.publicRooms code mem'
    ({ s with publicRooms := rooms', pubRef := mapDel s.pubRef c },
     mem'.map (fun p => (p, HubMsg.peerLeft c)))

/-- The "leave current coded room first" prelude of hub.go `JoinPublicRoom`
(`if client.publicRoom != nil { h.LeavePublicRoom(client) }`). -/
def joinLeaveFirst (s : HubState) (c : String) :
    HubState × List (String × HubMsg) :=
  match mapGet s.pubRef c with
  | some _ => leavePublicRoom s c
  | none => (s, [])

/-- hub.go `JoinPublicRoom` + client.go `handleJoinRoom`: unknown code
replies `room-error` and changes nothing; otherwise leave the current coded
room first (if any), then add the client to the fetched room object, reply
`room-joined` and broadcast `peer-joined`.  The object's table entry is
updated only while the code is still a key (the self-rejoin of a singleton
room deletes it during the leave, after which the Go code mutates the
orphaned room object). -/
def joinPublicRoom (s : HubState) (c : String) (code : List Char) :
    HubState × List (String × HubMsg) :=
  match mapGet s.publicRooms code with
  | none => (s, [(c, HubMsg.roomError "room not found")])
  | some _ =>
    let lv := joinLeaveFirst s c
    let s1 := lv.1
    let mem := (mapGet s1.publicRooms code).getD []
    let mem' := addMember mem c
    let rooms' :=
      match mapGet s1.publicRooms code with
      | some _ => mapSet s1.publicRooms code mem'
      | none => s1.publicRooms
    let others := mem'.filter (fun x => decide (x ≠ c))
    ({ s1 with publicRooms := rooms', pubRef := mapSet s1.pubRef c code },
     lv.2 ++ (c, HubMsg.roomJoined code others) ::
       others.map (fun p => (p, HubMsg.peerJoined c)))

/-- hub.go `Unregister`: remove the client from its IP room and its coded
room (broadcasting `peer-left`, deleting emptied rooms) and drop it from the
client table. -/
def unregisterIPRoom (s : HubState) (c : String) :
    HubState × List (String × HubMsg) :=
  match mapGet s.ipRef c with
  | none => (s, [])
  | some rid =>
    let mem := (mapGet s.ipRooms rid).getD []
    let mem' := removeMember mem c
    let rooms' :=
      if mem' = [] then mapDel s.ipRooms rid
      else mapSet s.ipRooms rid mem'
    ({ s with ipRooms := rooms', ipRef := mapDel s.ipRef c },
     mem'.map (fun p => (p, HubMsg.peerLeft c)))

def unregister (s : HubState) (c : String) :
    HubState × List (String × HubMsg) :=
  let ipPart := unregisterIPRoom s c
  let pubPart := leavePublicRoom ipPart.1 c
  ({ pubPart.1 with clients := pubPart.1.clients.filter (fun x => decide (x ≠ c)) },
   ipPart.2 ++ pubPart.2)

/-- hub.go `HandleWebSocket` registration: a freshly generated id is added to
the client table (generated ids are unique, so re-registration is a no-op in
the model). -/
def connectClient (s : HubState) (c : String) : HubState :=
  if c ∈ s.clients then s else { s with clients := c :: s.clients }

/-- hub.go `cleanupEmptyRooms`: the periodic sweep removing empty rooms. -/
def cleanupEmptyRooms (s : HubState) : HubState :=
  { s with ipRooms := s.ipRooms.filter (fun e => decide (e.2 ≠ [])),
           publicRooms := s.publicRooms.filter (fun e => decide (e.2 ≠ [])) }

/-- The hub operations reachable from the wire protocol and the sweep. -/
inductive HubOp where
  | connect (c : String)
  | join (c roomId : String)
  | create (c : String) (draws : List (Fin 5 → Nat))
  | joinRoom (c : String) (code : List Char)
  | leaveRoom (c : String)
  | unregister (c : String)
  | sweep

def hubStep (s : HubState) (op : HubOp) : HubState :=
  match op with
  | .connect c => connectClient s c
  | .join c rid => (joinIPRoom s c rid).1
  | .create c draws => (createPublicRoom s c draws).1
  | .joinRoom c code => (joinPublicRoom s c code).1
  | .leaveRoom c => (leavePublicRoom s c).1
  | .unregister c => (unregister s c).1
  | .sweep => cleanupEmptyRooms s

def runHub : HubState → List HubOp → HubState := List.foldl hubStep

/-- C5: a join-room request with a code absent from the coded-room table
replies exactly one `room-error` to the requesting session and leaves the
hub state entirely unchanged. -/
theorem join_unknown_code_error (s : HubState) (c : String) (code : List Char)
    (h : mapGet s.publicRooms code = none) :
    (joinPublicRoom s c code).1 = s ∧
    (joinPublicRoom s c code).2 = [(c, HubMsg.roomError "room not found")] := by
  rw [joinPublicRoom, h]
  exact ⟨rfl, rfl⟩

/-- Witness for `join_unknown_code_error`: joining code `"ZZZZZ"` on a hub
with one live room `"AAAAA"` errors and changes nothing. -/
theorem join_unknown_code_error_witness :
    (joinPublicRoom ⟨[], [("AAAAA".toList, ["a"])], ["a", "b"], [],
        [("a", "AAAAA".toList)]⟩ "b" "ZZZZZ".toList).1 =
      ⟨[], [("AAAAA".toList, ["a"])], ["a", "b"], [], [("a", "AAAAA".toList)]⟩ ∧
    (joinPublicRoom ⟨[], [("AAAAA".toList, ["a"])], ["a", "b"], [],
        [("a", "AAAAA".toList)]⟩ "b" "ZZZZZ".toList).2 =
      [("b", HubMsg.roomError "room not found")] :=
  join_unknown_code_error _ _ _ (by decide)

/-! ### Coded-room membership invariant (claim C6)

`RoomsRefInv` couples the coded-room table with the clients' `publicRoom`
references: table keys are distinct, every room member references that room,
and every referenced room is in the table and contains the referencing
client.  It implies that a session is a member of at most one coded room. -/

def RoomsRefInv (rooms : List (List Char × List String))
    (refs : List (String × List Char)) : Prop :=
  (rooms.map Prod.fst).Nodup ∧
  (∀ c code mem, mapGet rooms code = some mem → c ∈ mem →
    mapGet refs c = some code) ∧
  (∀ c code, mapGet refs c = some code →
    ∃ mem, mapGet rooms code = some mem ∧ c ∈ mem)

def HubInv (s : HubState) : Prop := RoomsRefInv s.publicRooms s.pubRef

lemma hubInv_def (s : HubState) :
    HubInv s ↔ RoomsRefInv s.publicRooms s.pubRef := Iff.rfl

/-- Each session is a member of at most one coded room of the table. -/
def AtMostOneCodedRoom (s : HubState) : Prop :=
  ∀ c code1 code2 mem1 mem2,
    mapGet s.publicRooms code1 = some mem1 → c ∈ mem1 →
    mapGet s.publicRooms code2 = some mem2 → c ∈ mem2 → code1 = code2

lemma hubInv_atMostOne {s : HubState} (h : HubInv s) : AtMostOneCodedRoom s := by
  intro c c1 c2 m1 m2 hm1 hc1 hm2 hc2
  have e1 := h.2.1 c c1 m1 hm1 hc1
  have e2 := h.2.1 c c2 m2 hm2 hc2
  rw [e1] at e2
  exact Option.some.inj e2

lemma inv_leave_shape {rooms : List (List Char × List String)}
    {refs : List (String × List Char)} {c : String} {code : List Char}
    {mem0 : List String} (h : RoomsRefInv rooms refs)
    (href : mapGet refs c = some code)
    (hmem0 : mapGet rooms code = some mem0) :
    RoomsRefInv
      (if removeMember mem0 c = [] then mapDel rooms code
       else mapSet rooms code (removeMember mem0 c))
      (mapDel refs c) := by
  obtain ⟨hnd, hmr, hrm⟩ := h
  by_cases hemp : removeMember mem0 c = []
  · rw [if_pos hemp]
    refine ⟨keysNodup_del code hnd, ?_, ?_⟩
    · intro x code' mem' hm' hx
      rw [mapGet_del] at hm'
      by_cases hc' : code' = code
      · rw [if_pos hc'] at hm'
        cases hm'
      · rw [if_neg hc'] at hm'
        have hrefx := hmr x code' mem' hm' hx
        rw [mapGet_del]
        by_cases hxc : x = c
        · subst hxc
          rw [href] at hrefx
          exact absurd (Option.some.inj hrefx).symm hc'
        · rw [if_neg hxc]
          exact hrefx
    · intro x code2 hx2
      rw [mapGet_del] at hx2
      by_cases hxc : x = c
      · rw [if_pos hxc] at hx2
        cases hx2
      · rw [if_neg hxc] at hx2
        obtain ⟨mem2, hm2, hxm2⟩ := hrm x code2 hx2
        by_cases hc2 : code2 = code
        · subst hc2
          rw [hmem0] at hm2
          have hme := Option.some.inj hm2
          subst hme
          exfalso
          have hin : x ∈ removeMember mem0 c := mem_removeMember.mpr ⟨hxm2, hxc⟩
          rw [hemp] at hin
          cases hin
        · refine ⟨mem2, ?_, hxm2⟩
          rw [mapGet_del, if_neg hc2]
          exact hm2
  · rw [if_neg hemp]
    refine ⟨keysNodup_set code _ hnd, ?_, ?_⟩
    · intro x code' mem' hm' hx
      rw [mapGet_set] at hm'
      by_cases hc' : code' = code
      · rw [if_pos hc'] at hm'
        have hme := Option.some.inj hm'
        subst hme
        obtain ⟨hxmem0, hxc⟩ := mem_removeMember.mp hx
        have hrefx := hmr x code mem0 hmem0 hxmem0
        rw [mapGet_del, if_neg hxc, hc']
        exact hrefx
      · rw [if_neg hc'] at hm'
        have hrefx := hmr x code' mem' hm' hx
        rw [mapGet_del]
        by_cases hxc : x = c
        · subst hxc
          rw [href] at hrefx
          exact absurd (Option.some.inj hrefx).symm hc'
        · rw [if_neg hxc]
          exact hrefx
    · intro x code2 hx2
      rw [mapGet_del] at hx2
      by_cases hxc : x = c
      · rw [if_pos hxc] at hx2
        cases hx2
      · rw [if_neg hxc] at hx2
        obtain ⟨mem2, hm2, hxm2⟩ := hrm x code2 hx2
        by_cases hc2 : code2 = code
        · subst hc2
          rw [hmem0] at hm2
          have hme := Option.some.inj hm2
          subst hme
          refine ⟨removeMember mem0 c, ?_, mem_removeMember.mpr ⟨hxm2, hxc⟩⟩
          rw [mapGet_set, if_pos rfl]
        · refine ⟨mem2, ?_, hxm2⟩
          rw [mapGet_set, if_neg hc2]
          exact hm2

lemma inv_insert_shape {rooms : List (List Char × List String)}
    {refs : List (String × List Char)} {c : String} {code : List Char}
    {newMem : List String} (h : RoomsRefInv rooms refs)
    (href : mapGet refs c = none)
    (hc : c ∈ newMem)
    (hsub : ∀ x ∈ newMem, x ≠ c →
      ∃ mem, mapGet rooms code = some mem ∧ x ∈ mem)
    (hOldIn : ∀ x mem2, mapGet rooms code = some mem2 → x ∈ mem2 →
      x ∈ newMem) :
    RoomsRefInv (mapSet rooms code newMem) (mapSet refs c code) := by
  obtain ⟨hnd, hmr, hrm⟩ := h
  refine ⟨keysNodup_set code newMem hnd, ?_, ?_⟩
  · intro x code' mem' hm' hx
    rw [mapGet_set] at hm'
    rw [mapGet_set]
    by_cases hc' : code' = code
    · rw [if_pos hc'] at hm'
      have hme := Option.some.inj hm'
      subst hme
      by_cases hxc : x = c
      · rw [if_pos hxc, hc']
      · obtain ⟨mem, hmem, hxmem⟩ := hsub x hx hxc
        have hrefx := hmr x code mem hmem hxmem
        rw [if_neg hxc, hc']
        exact hrefx
    · rw [if_neg hc'] at hm'
      have hrefx := hmr x code' mem' hm' hx
      by_cases hxc : x = c
      · subst hxc
        rw [href] at hrefx
        cases hrefx
      · rw [if_neg hxc]
        exact hrefx
  · intro x code2 hx2
    rw [mapGet_set] at hx2
    by_cases hxc : x = c
    · rw [if_pos hxc] at hx2
      have hce := Option.some.inj hx2
      subst hce
      refine ⟨newMem, ?_, hxc ▸ hc⟩
      rw [mapGet_set, if_pos rfl]
    · rw [if_neg hxc] at hx2
      obtain ⟨mem2, hm2, hxm2⟩ := hrm x code2 hx2
      by_cases hc2 : code2 = code
      · subst hc2
        refine ⟨newMem, ?_, hOldIn x mem2 hm2 hxm2⟩
        rw [mapGet_set, if_pos rfl]
      · refine ⟨mem2, ?_, hxm2⟩
        rw [mapGet_set, if_neg hc2]
        exact hm2

lemma leave_state_none {s : HubState} {c : String}
    (href : mapGet s.pubRef c = none) : (leavePublicRoom s c).1 = s := by
  rw [leavePublicRoom, href]

lemma leave_publicRooms {s : HubState} {c : String} {code : List Char}
    (href : mapGet s.pubRef c = some code) :
    (leavePublicRoom s c).1.publicRooms =
      if removeMember ((mapGet s.publicRooms code).getD []) c = [] then
        mapDel s.publicRooms code
      else
        mapSet s.publicRooms code
          (removeMember ((mapGet s.publicRooms code).getD []) c) := by
  rw [leavePublicRoom, href]

lemma leave_pubRef {s : HubState} {c : String} {code : List Char}
    (href : mapGet s.pubRef c = some code) :
    (leavePublicRoom s c).1.pubRef = mapDel s.pubRef c := by
  rw [leavePublicRoom, href]

lemma leave_msgs {s : HubState} {c : String} {code : List Char}
    (href : mapGet s.pubRef c = some code) :
    (leavePublicRoom s c).2 =
      (removeMember ((mapGet s.publicRooms code).getD []) c).map
        (fun p => (p, HubMsg.peerLeft c)) := by
  rw [leavePublicRoom, href]

lemma leave_preserves {s : HubState} (c : String) (h : HubInv s) :
    HubInv (leavePublicRoom s c).1 := by
  cases href : mapGet s.pubRef c with
  | none =>
    rw [hubInv_def, leave_state_none href]
    exact h
  | some code =>
    obtain ⟨mem0, hmem0, hcmem0⟩ := h.2.2 c code href
    rw [hubInv_def, leave_publicRooms href, leave_pubRef href, hmem0]
    simp only [Option.getD_some]
    exact inv_leave_shape h href hmem0

lemma leave_refs_self {s : HubState} {c : String} {code : List Char}
    (href : mapGet s.pubRef c = some code) :
    mapGet (leavePublicRoom s c).1.pubRef c = none := by
  rw [leave_pubRef href, mapGet_del, if_pos rfl]

lemma leave_lookup_other {s : HubState} {c : String} {code code' : List Char}
    (href : mapGet s.pubRef c = some code) (hne : code' ≠ code) :
    mapGet (leavePublicRoom s c).1.publicRooms code' =
      mapGet s.publicRooms code' := by
  rw [leave_publicRooms href]
  by_cases hemp : removeMember ((mapGet s.publicRooms code).getD []) c = []
  · rw [if_pos hemp, mapGet_del, if_neg hne]
  · rw [if_neg hemp, mapGet_set, if_neg hne]

lemma leave_lookup_self {s : HubState} {c : String} {code : List Char}
    {mem0 : List String} (href : mapGet s.pubRef c = some code)
    (hmem0 : mapGet s.publicRooms code = some mem0)
    (hne : removeMember mem0 c ≠ []) :
    mapGet (leavePublicRoom s c).1.publicRooms code =
      some (removeMember mem0 c) := by
  rw [leave_publicRooms href, hmem0]
  simp only [Option.getD_some]
  rw [if_neg hne, mapGet_set, if_pos rfl]

lemma create_state_none {s : HubState} {c : String} {draws : List (Fin 5 → Nat)}
    (hfc : freshRoomCode draws (s.publicRooms.map Prod.fst) = none) :
    (createPublicRoom s c draws).1 = s := by
  rw [createPublicRoom, hfc]

lemma create_publicRooms {s : HubState} {c : String} {draws : List (Fin 5 → Nat)}
    {code : List Char}
    (hfc : freshRoomCode draws (s.publicRooms.map Prod.fst) = some code) :
    (createPublicRoom s c draws).1.publicRooms = mapSet s.publicRooms code [c] := by
  rw [createPublicRoom, hfc]

lemma create_pubRef {s : HubState} {c : String} {draws : List (Fin 5 → Nat)}
    {code : List Char}
    (hfc : freshRoomCode draws (s.publicRooms.map Prod.fst) = some code) :
    (createPublicRoom s c draws).1.pubRef = mapSet s.pubRef c code := by
  rw [createPublicRoom, hfc]

lemma create_preserves {s : HubState} (c : String) (draws : List (Fin 5 → Nat))
    (h : HubInv s) (hok : mapGet s.pubRef c = none) :
    HubInv (createPublicRoom s c draws).1 := by
  cases hfc : freshRoomCode draws (s.publicRooms.map Prod.fst) with
  | none =>
    rw [hubInv_def, create_state_none hfc]
    exact h
  | some code =>
    have hfreshGet : mapGet s.publicRooms code = none :=
      (mapGet_eq_none_iff _ _).mpr (freshRoomCode_spec _ _ _ hfc).1
    rw [hubInv_def, create_publicRooms hfc, create_pubRef hfc]
    refine inv_insert_shape h hok (by simp) ?_ ?_
    · intro x hx hxc
      exact absurd (by simpa using hx) hxc
    · intro x mem2 hm2
      rw [hfreshGet] at hm2
      cases hm2

lemma join_state_none {s : HubState} {c : String} {code : List Char}
    (hmem : mapGet s.publicRooms code = none) :
    joinPublicRoom s c code = (s, [(c, HubMsg.roomError "room not found")]) := by
  rw [joinPublicRoom, hmem]

lemma join_found_state {s : HubState} {c : String} {code : List Char}
    {mem mem1 : List String} (hmem : mapGet s.publicRooms code = some mem)
    (hlook : mapGet (joinLeaveFirst s c).1.publicRooms code = some mem1) :
    (joinPublicRoom s c code).1 =
      { (joinLeaveFirst s c).1 with
          publicRooms :=
            mapSet (joinLeaveFirst s c).1.publicRooms code (addMember mem1 c),
          pubRef := mapSet (joinLeaveFirst s c).1.pubRef c code } := by
  simp only [joinPublicRoom, hmem, hlook, Option.getD_some]

lemma join_found_msgs {s : HubState} {c : String} {code : List Char}
    {mem mem1 : List String} (hmem : mapGet s.publicRooms code = some mem)
    (hlook : mapGet (joinLeaveFirst s c).1.publicRooms code = some mem1) :
    (joinPublicRoom s c code).2 =
      (joinLeaveFirst s c).2 ++
        (c, HubMsg.roomJoined code
          ((addMember mem1 c).filter (fun x => decide (x ≠ c)))) ::
        ((addMember mem1 c).filter (fun x => decide (x ≠ c))).map
          (fun p => (p, HubMsg.peerJoined c)) := by
  simp only [joinPublicRoom, hmem, hlook, Option.getD_some]

lemma joinLeaveFirst_none {s : HubState} {c : String}
    (href : mapGet s.pubRef c = none) : joinLeaveFirst s c = (s, []) := by
  rw [joinLeaveFirst, href]

lemma joinLeaveFirst_some {s : HubState} {c : String} {code : List Char}
    (href : mapGet s.pubRef c = some code) :
    joinLeaveFirst s c = leavePublicRoom s c := by
  rw [joinLeaveFirst, href]

/-- okOp for C6's restricted traces: a `create-room` only while not in a coded
room, and a `join-room` to one's current room only while it has other
members. -/
def okOpB (s : HubState) (op : HubOp) : Bool :=
  match op with
  | .create c _ => (mapGet s.pubRef c).isNone
  | .joinRoom c code =>
    match mapGet s.publicRooms code, mapGet s.pubRef c with
    | some mem, some code2 =>
      if code2 = code then decide (removeMember mem c ≠ []) else true
    | _, _ => true
  | _ => true

def okTrace : HubState → List HubOp → Bool
  | _, [] => true
  | s, op :: rest => okOpB s op && okTrace (hubStep s op) rest

lemma join_preserves {s : HubState} (c : String) (code : List Char)
    (h : HubInv s) (hok : okOpB s (.joinRoom c code) = true) :
    HubInv (joinPublicRoom s c code).1 := by
  cases hmem : mapGet s.publicRooms code with
  | none =>
    rw [hubInv_def, join_state_none hmem]
    exact h
  | some mem =>
    cases href : mapGet s.pubRef c with
    | none =>
      have hlook : mapGet (joinLeaveFirst s c).1.publicRooms code = some mem := by
        rw [joinLeaveFirst_none href]
        exact hmem
      rw [hubInv_def, join_found_state hmem hlook]
      have hrefJ : mapGet (joinLeaveFirst s c).1.pubRef c = none := by
        rw [joinLeaveFirst_none href]
        exact href
      have hInv1 : HubInv (joinLeaveFirst s c).1 := by
        rw [joinLeaveFirst_none href]
        exact h
      refine inv_insert_shape hInv1 hrefJ (mem_addMember.mpr (Or.inr rfl)) ?_ ?_
      · intro x hx hxc
        rcases mem_addMember.mp hx with hx' | hx'
        · exact ⟨mem, hlook, hx'⟩
        · exact absurd hx' hxc
      · intro x mem2 hm2 hx2
        rw [hlook] at hm2
        have hme := Option.some.inj hm2
        subst hme
        exact mem_addMember.mpr (Or.inl hx2)
    | some old =>
      have hInv1 : HubInv (joinLeaveFirst s c).1 := by
        rw [joinLeaveFirst_some href]
        exact leave_preserves c h
      have hrefJ : mapGet (joinLeaveFirst s c).1.pubRef c = none := by
        rw [joinLeaveFirst_some href]
        exact leave_refs_self href
      by_cases hoc : old = code
      · rw [hoc] at href
        have hne : removeMember mem c ≠ [] := by
          simp only [okOpB, hmem, href, if_true, decide_eq_true_eq] at hok
          exact hok
        have hlook : mapGet (joinLeaveFirst s c).1.publicRooms code =
            some (removeMember mem c) := by
          rw [joinLeaveFirst_some href]
          exact leave_lookup_self href hmem hne
        rw [hubInv_def, join_found_state hmem hlook]
        refine inv_insert_shape hInv1 hrefJ (mem_addMember.mpr (Or.inr rfl)) ?_ ?_
        · intro x hx hxc
          rcases mem_addMember.mp hx with hx' | hx'
          · exact ⟨removeMember mem c, hlook, hx'⟩
          · exact absurd hx' hxc
        · intro x mem2 hm2 hx2
          rw [hlook] at hm2
          have hme := Option.some.inj hm2
          subst hme
          exact mem_addMember.mpr (Or.inl hx2)
      · have hlook : mapGet (joinLeaveFirst s c).1.publicRooms code = some mem := by
          rw [joinLeaveFirst_some href,
            leave_lookup_other href (fun hh => hoc hh.symm)]
          exact hmem
        rw [hubInv_def, join_found_state hmem hlook]
        refine inv_insert_shape hInv1 hrefJ (mem_addMember.mpr (Or.inr rfl)) ?_ ?_
        · intro x hx hxc
          rcases mem_addMember.mp hx with hx' | hx'
          · exact ⟨mem, hlook, hx'⟩
          · exact absurd hx' hxc
        · intro x mem2 hm2 hx2
          rw [hlook] at hm2
          have hme := Option.some.inj hm2
          subst hme
          exact mem_addMember.mpr (Or.inl hx2)

lemma unregisterIPRoom_pub (s : HubState) (c : String) :
    (unregisterIPRoom s c).1.publicRooms = s.publicRooms ∧
    (unregisterIPRoom s c).1.pubRef = s.pubRef := by
  cases href : mapGet s.ipRef c with
  | none =>
    rw [unregisterIPRoom, href]
    exact ⟨rfl, rfl⟩
  | some rid =>
    rw [unregisterIPRoom, href]
    exact ⟨rfl, rfl⟩

lemma unregister_preserves {s : HubState} (c : String) (h : HubInv s) :
    HubInv (unregister s c).1 := by
  have hip : HubInv (unregisterIPRoom s c).1 := by
    rw [hubInv_def, (unregisterIPRoom_pub s c).1, (unregisterIPRoom_pub s c).2]
    exact h
  have hpub : HubInv (leavePublicRoom (unregisterIPRoom s c).1 c).1 :=
    leave_preserves c hip
  rw [unregister]
  exact hpub

lemma sweep_preserves {s : HubState} (h : HubInv s) :
    HubInv (cleanupEmptyRooms s) := by
  obtain ⟨hnd, hmr, hrm⟩ := h
  rw [hubInv_def, cleanupEmptyRooms]
  refine ⟨?_, ?_, ?_⟩
  · exact List.Nodup.sublist
      (List.Sublist.map Prod.fst (List.filter_sublist s.publicRooms)) hnd
  · intro x code mem hm hx
    obtain ⟨hm', -⟩ := mapGet_filter_of_nodup hnd hm
    exact hmr x code mem hm' hx
  · intro x code hx
    obtain ⟨mem, hm, hxm⟩ := hrm x code hx
    refine ⟨mem, ?_, hxm⟩
    refine mapGet_filter_of_true hm ?_
    simp only [decide_eq_true_eq]
    exact List.ne_nil_of_mem hxm

lemma hubStep_preserves (s : HubState) (op : HubOp) (h : HubInv s)
    (hok : okOpB s op = true) : HubInv (hubStep s op) := by
  cases op with
  | connect c =>
    rw [hubStep, connectClient]
    split
    · exact h
    · exact h
  | join c rid =>
    rw [hubStep]
    exact h
  | create c draws =>
    rw [hubStep]
    refine create_preserves c draws h ?_
    rw [okOpB] at hok
    exact Option.isNone_iff_eq_none.mp hok
  | joinRoom c code =>
    rw [hubStep]
    exact join_preserves c code h hok
  | leaveRoom c =>
    rw [hubStep]
    exact leave_preserves c h
  | unregister c =>
    rw [hubStep]
    exact unregister_preserves c h
  | sweep =>
    rw [hubStep]
    exact sweep_preserves h

lemma runHub_preserves (tr : List HubOp) (s : HubState) (h : HubInv s)
    (hok : okTrace s tr = true) : HubInv (runHub s tr) := by
  induction tr generalizing s with
  | nil => exact h
  | cons op rest ih =>
    rw [okTrace, Bool.and_eq_true] at hok
    exact ih (hubStep s op) (hubStep_preserves s op h hok.1) hok.2

/-- Counterexample to C6 as stated: after `connect c; create-room; create-room`
(reachable wire-protocol behaviour — `CreatePublicRoom` does not leave the
previous coded room), session `c` is a member of the two simultaneously live
coded rooms `"AAAAA"` and `"BBBBB"`. -/
theorem coded_room_double_membership_cex :
    ¬ AtMostOneCodedRoom (runHub hubInit
      [.connect "c", .create "c" [fun _ => 0], .create "c" [fun _ => 1]]) := by
  intro h
  have h1 : mapGet (runHub hubInit
      [.connect "c", .create "c" [fun _ => 0],
       .create "c" [fun _ => 1]]).publicRooms "AAAAA".toList = some ["c"] := by
    decide
  have h2 : mapGet (runHub hubInit
      [.connect "c", .create "c" [fun _ => 0],
       .create "c" [fun _ => 1]]).publicRooms "BBBBB".toList = some ["c"] := by
    decide
  have heq := h "c" "AAAAA".toList "BBBBB".toList ["c"] ["c"] h1 (by decide)
    h2 (by decide)
  exact absurd heq (by decide)

/-- C6 (amended): in every hub state reached by a trace in which no session
creates a room while already in a coded room and no sole member rejoins its
own room, the membership/reference invariant holds — so each session belongs
to at most one coded room and the room a session references is stored in the
table under its code.  Moreover a session joining an existing coded room
while referencing a different one is first removed from the old room, the
`peer-left` broadcast to the old room's remaining members precedes the join
messages, the old room is deleted exactly when it empties, and the session
ends up a member of, and referencing, the new room. -/
theorem coded_room_invariant_amended :
    (∀ tr : List HubOp, okTrace hubInit tr = true →
      HubInv (runHub hubInit tr) ∧ AtMostOneCodedRoom (runHub hubInit tr)) ∧
    (∀ (s : HubState) (c : String) (code old : List Char)
        (oldMem mem : List String),
      mapGet s.pubRef c = some old → old ≠ code →
      mapGet s.publicRooms old = some oldMem →
      mapGet s.publicRooms code = some mem →
      (mapGet (joinPublicRoom s c code).1.publicRooms old =
        if removeMember oldMem c = [] then none
        else some (removeMember oldMem c)) ∧
      (∃ rest, (joinPublicRoom s c code).2 =
        (removeMember oldMem c).map (fun p => (p, HubMsg.peerLeft c)) ++ rest) ∧
      (∃ mem2, mapGet (joinPublicRoom s c code).1.publicRooms code = some mem2 ∧
        c ∈ mem2) ∧
      mapGet (joinPublicRoom s c code).1.pubRef c = some code) := by
  constructor
  · intro tr hok
    have hinit : HubInv hubInit := by
      refine ⟨List.nodup_nil, ?_, ?_⟩
      · intro c code mem hm
        simp [hubInit, mapGet] at hm
      · intro c code hm
        simp [hubInit, mapGet] at hm
    have hinv := runHub_preserves tr hubInit hinit hok
    exact ⟨hinv, hubInv_atMostOne hinv⟩
  · intro s c code old oldMem mem href hneq holdMem hmem
    have hoc : code ≠ old := fun hh => hneq hh.symm
    have hlv := joinLeaveFirst_some href
    have hlook : mapGet (joinLeaveFirst s c).1.publicRooms code = some mem := by
      rw [hlv, leave_lookup_other href hoc]
      exact hmem
    have hjs := join_found_state hmem hlook
    refine ⟨?_, ?_, ?_, ?_⟩
    · simp only [hjs]
      rw [mapGet_set, if_neg hneq, hlv, leave_publicRooms href, holdMem]
      simp only [Option.getD_some]
      by_cases hemp : removeMember oldMem c = []
      · rw [if_pos hemp, if_pos hemp, mapGet_del, if_pos rfl]
      · rw [if_neg hemp, if_neg hemp, mapGet_set, if_pos rfl]
    · rw [join_found_msgs hmem hlook, hlv, leave_msgs href, holdMem]
      simp only [Option.getD_some]
      exact ⟨_, rfl⟩
    · refine ⟨addMember mem c, ?_, mem_addMember.mpr (Or.inr rfl)⟩
      simp only [hjs]
      rw [mapGet_set, if_pos rfl]
    · simp only [hjs]
      rw [mapGet_set, if_pos rfl]

/-- Witness for `coded_room_invariant_amended`: a well-behaved trace (two
sessions, each creating its own room, then `b` joining `a`'s room) satisfies
the restriction and the invariant, and in the concrete pre-join state session
`b` ends up referencing the room it joined. -/
theorem coded_room_invariant_amended_witness :
    okTrace hubInit [.connect "a", .connect "b", .create "a" [fun _ => 0],
      .create "b" [fun _ => 1], .joinRoom "b" "AAAAA".toList] = true ∧
    AtMostOneCodedRoom (runHub hubInit [.connect "a", .connect "b",
      .create "a" [fun _ => 0], .create "b" [fun _ => 1],
      .joinRoom "b" "AAAAA".toList]) ∧
    mapGet (joinPublicRoom
      ⟨[], [("AAAAA".toList, ["a"]), ("BBBBB".toList, ["b"])], ["a", "b"], [],
        [("a", "AAAAA".toList), ("b", "BBBBB".toList)]⟩
      "b" "AAAAA".toList).1.pubRef "b" = some "AAAAA".toList := by
  refine ⟨by decide, (coded_room_invariant_amended.1 _ (by decide)).2, ?_⟩
  exact (coded_room_invariant_amended.2
    ⟨[], [("AAAAA".toList, ["a"]), ("BBBBB".toList, ["b"])], ["a", "b"], [],
      [("a", "AAAAA".toList), ("b", "BBBBB".toList)]⟩
    "b" "AAAAA".toList "BBBBB".toList ["b"] ["a"]
    (by decide) (by decide) (by decide) (by decide)).2.2.2

/-! ### Direct-path chunked transfer — src/web/static/js/file-transfer.js

A file is its byte list (JS `ArrayBuffer` contents).  The sender's loop
`while (offset < file.size) { chunk = file.slice(offset, offset+CHUNK_SIZE);
offset += CHUNK_SIZE }` is `chunksFrom`; `sendViaDataChannel` emits one
metadata frame per file (declaring `totalChunks = Math.ceil(size/CHUNK_SIZE)`)
followed by its chunk frames, then one complete frame.  The receiver
(`handleMetadata`/`handleChunk`/`saveReceivedFile`/`handleComplete`)
accumulates chunk data and finalizes a file when the accumulated chunk count
reaches the declared `totalChunks`.  Metadata `name`/`type` strings do not
affect the byte-level claims and are omitted from the metadata record. -/

abbrev Bytes := List Nat

def CHUNK_SIZE : Nat := 64 * 1024

def chunksFrom (f : Bytes) (offset : Nat) : List Bytes :=
  if offset < f.length then
    ((f.drop offset).take CHUNK_SIZE) :: chunksFrom f (offset + CHUNK_SIZE)
  else []
termination_by f.length - offset
decreasing_by
  simp only [CHUNK_SIZE]
  omega

lemma chunksFrom_stop {f : Bytes} {offset : Nat} (h : ¬ offset < f.length) :
    chunksFrom f offset = [] := by
  rw [chunksFrom, if_neg h]

lemma chunksFrom_step {f : Bytes} {offset : Nat} (h : offset < f.length) :
    chunksFrom f offset =
      ((f.drop offset).take CHUNK_SIZE) :: chunksFrom f (offset + CHUNK_SIZE) := by
  rw [chunksFrom]
  rw [if_pos h]

lemma chunksFrom_join (f : Bytes) :
    ∀ (n offset : Nat), f.length - offset ≤ n →
      (chunksFrom f offset).flatten = f.drop offset := by
  intro n
  induction n with
  | zero =>
    intro offset hb
    have hge : ¬ offset < f.length := by omega
    rw [chunksFrom_stop hge, List.drop_eq_nil_iff.mpr (by omega)]
    rfl
  | succ n ih =>
    intro offset hb
    by_cases hlt : offset < f.length
    · rw [chunksFrom_step hlt, List.flatten_cons,
        ih (offset + CHUNK_SIZE) (by simp only [CHUNK_SIZE] at *; omega)]
      rw [← List.drop_drop, List.take_append_drop]
    · rw [chunksFrom_stop hlt, List.drop_eq_nil_iff.mpr (by omega)]
      rfl

lemma chunksFrom_length (f : Bytes) :
    ∀ (n offset : Nat), f.length - offset ≤ n →
      (chunksFrom f offset).length =
        (f.length - offset + CHUNK_SIZE - 1) / CHUNK_SIZE := by
  intro n
  induction n with
  | zero =>
    intro offset hb
    have hge : ¬ offset < f.length := by omega
    rw [chunksFrom_stop hge]
    simp only [CHUNK_SIZE] at *
    simp only [List.length_nil]
    omega
  | succ n ih =>
    intro offset hb
    by_cases hlt : offset < f.length
    · rw [chunksFrom_step hlt, List.length_cons,
        ih (offset + CHUNK_SIZE) (by simp only [CHUNK_SIZE] at *; omega)]
      simp only [CHUNK_SIZE] at *
      omega
    · rw [chunksFrom_stop hlt]
      simp only [List.length_nil, CHUNK_SIZE] at *
      omega

lemma chunksFrom_map_length (f : Bytes) :
    ∀ (n offset : Nat), f.length - offset ≤ n →
      offset % CHUNK_SIZE = 0 → offset < f.length →
      (chunksFrom f offset).map List.length =
        List.replicate ((f.length - offset - 1) / CHUNK_SIZE) CHUNK_SIZE ++
          [if f.length % CHUNK_SIZE = 0 then CHUNK_SIZE
           else f.length % CHUNK_SIZE] := by
  intro n
  induction n with
  | zero =>
    intro offset hb _ hlt
    omega
  | succ n ih =>
    intro offset hb hoff hlt
    rw [chunksFrom_step hlt, List.map_cons]
    have hlen1 : ((f.drop offset).take CHUNK_SIZE).length =
        min CHUNK_SIZE (f.length - offset) := by
      simp [List.length_take, List.length_drop]
    by_cases h2 : offset + CHUNK_SIZE < f.length
    · rw [ih (offset + CHUNK_SIZE) (by simp only [CHUNK_SIZE] at *; omega)
        (by simp only [CHUNK_SIZE] at *; omega) h2]
      have hone : min CHUNK_SIZE (f.length - offset) = CHUNK_SIZE := by
        simp only [CHUNK_SIZE] at *
        omega
      rw [hlen1, hone]
      have hrep : (f.length - offset - 1) / CHUNK_SIZE =
          (f.length - (offset + CHUNK_SIZE) - 1) / CHUNK_SIZE + 1 := by
        simp only [CHUNK_SIZE] at *
        omega
      rw [hrep, List.replicate_succ, List.cons_append]
    · rw [chunksFrom_stop h2]
      have hzero : (f.length - offset - 1) / CHUNK_SIZE = 0 := by
        simp only [CHUNK_SIZE] at *
        omega
      rw [hzero, List.replicate_zero, List.nil_append, List.map_nil, hlen1]
      have : min CHUNK_SIZE (f.length - offset) =
          if f.length % CHUNK_SIZE = 0 then CHUNK_SIZE
          else f.length % CHUNK_SIZE := by
        by_cases hm : f.length % CHUNK_SIZE = 0
        · rw [if_pos hm]
          simp only [CHUNK_SIZE] at *
          omega
        · rw [if_neg hm]
          simp only [CHUNK_SIZE] at *
          omega
      rw [this]

/-- Metadata record of a direct-path metadata frame (fields `fileIndex`,
`size`, `totalChunks`; the `name`/`type` strings are omitted). -/
structure FileMeta where
  fileIndex : Nat
  size : Nat
  totalChunks : Nat
  deriving DecidableEq, Repr

/-- The three binary frame kinds of the direct path. -/
inductive Frame where
  | metadata (m : FileMeta)
  | chunk (fileIndex chunkIndex : Nat) (data : Bytes)
  | complete
  deriving DecidableEq, Repr

/-- Frames `sendViaDataChannel` emits for one file: a metadata frame with
`totalChunks = Math.ceil(size / CHUNK_SIZE)`, then the indexed chunk
frames of the slicing loop. -/
def senderFramesFile (fi : Nat) (f : Bytes) : List Frame :=
  Frame.metadata ⟨fi, f.length, (f.length + CHUNK_SIZE - 1) / CHUNK_SIZE⟩ ::
    (chunksFrom f 0).enum.map (fun p => Frame.chunk fi p.1 p.2)

/-- All frames of one direct-path transfer: per-file frame groups in file
order, then one complete frame. -/
def senderFrames (files : List Bytes) : List Frame :=
  (files.enum.map (fun p => senderFramesFile p.1 p.2)).flatten ++ [Frame.complete]

/-- Receiver-side state of one incoming transfer on the direct path. -/
structure DirectRecv where
  currentFileData : List Bytes
  currentFileMetadata : Option FileMeta
  saved : List Bytes
  completed : Bool
  bytesReceived : Nat
  deriving DecidableEq, Repr

def directRecvInit : DirectRecv := ⟨[], none, [], false, 0⟩

/-- file-transfer.js `saveReceivedFile`: assemble the accumulated chunks into
one blob, append it to the received files, reset the per-file state.  (With
no metadata in place the JS would throw on `metadata.type`; that branch is
unreachable under the sender protocol and modelled as a no-op.) -/
def saveReceivedFile (st : DirectRecv) : DirectRecv :=
  match st.currentFileMetadata with
  | some _ =>
    { st with saved := st.saved ++ [st.currentFileData.flatten],
              currentFileData := [], currentFileMetadata := none }
  | none => st

/-- file-transfer.js `handleChunk` minus the peer lookup: push the chunk,
count its bytes, and finalize the file when the accumulated chunk count
reaches `currentFileMetadata?.totalChunks || 0`. -/
def handleChunkData (st : DirectRecv) (data : Bytes) : DirectRecv :=
  let st' := { st with currentFileData := st.currentFileData ++ [data],
                       bytesReceived := st.bytesReceived + data.length }
  let expected :=
    match st'.currentFileMetadata with
    | some m => m.totalChunks
    | none => 0
  if expected ≤ st'.currentFileData.length then saveReceivedFile st' else st'

/-- Receiver dispatch for one frame (`handleBinaryMessage` →
`handleMetadata` / `handleChunk` / `handleComplete`); a completed transfer
has been deleted from `incomingTransfers`, so its frames find no transfer
and are ignored. -/
def handleFrame (st : DirectRecv) (fr : Frame) : DirectRecv :=
  if st.completed then st
  else
    match fr with
    | .metadata m =>
      { st with currentFileData := [], currentFileMetadata := some m }
    | .chunk _ _ data => handleChunkData st data
    | .complete => { st with completed := true }

def runDirect (frames : List Frame) : DirectRecv :=
  frames.foldl handleFrame directRecvInit

lemma handleFrame_metadata {st : DirectRecv} (hc : st.completed = false)
    (m : FileMeta) :
    handleFrame st (.metadata m) =
      { st with currentFileData := [], currentFileMetadata := some m } := by
  rw [handleFrame.eq_def, hc]
  rfl

lemma handleFrame_chunk {st : DirectRecv} (hc : st.completed = false)
    (fi i : Nat) (d : Bytes) :
    handleFrame st (.chunk fi i d) = handleChunkData st d := by
  rw [handleFrame.eq_def, hc]
  rfl

lemma handleFrame_complete {st : DirectRecv} (hc : st.completed = false) :
    handleFrame st .complete = { st with completed := true } := by
  rw [handleFrame.eq_def, hc]
  rfl

lemma handleChunkData_save {st : DirectRecv} {m : FileMeta} (d : Bytes)
    (hmeta : st.currentFileMetadata = some m)
    (hfull : m.totalChunks ≤ st.currentFileData.length + 1) :
    handleChunkData st d =
      ⟨[], none, st.saved ++ [(st.currentFileData ++ [d]).flatten],
        st.completed, st.bytesReceived + d.length⟩ := by
  rw [handleChunkData]
  simp only [hmeta]
  rw [if_pos (by simp only [List.length_append, List.length_cons,
    List.length_nil]; omega)]
  rw [saveReceivedFile]

lemma handleChunkData_acc {st : DirectRecv} {m : FileMeta} (d : Bytes)
    (hmeta : st.currentFileMetadata = some m)
    (hnotfull : ¬ m.totalChunks ≤ st.currentFileData.length + 1) :
    handleChunkData st d =
      { st with currentFileData := st.currentFileData ++ [d],
                bytesReceived := st.bytesReceived + d.length } := by
  rw [handleChunkData]
  simp only [hmeta]
  rw [if_neg (by simp only [List.length_append, List.length_cons,
    List.length_nil]; omega)]

lemma fold_chunks (fi : Nat) :
    ∀ (cs : List (Nat × Bytes)) (st : DirectRecv) (m : FileMeta)
      (acc : List Bytes),
      st.completed = false → st.currentFileMetadata = some m →
      st.currentFileData = acc →
      m.totalChunks = acc.length + cs.length → cs ≠ [] →
      ∃ br, List.foldl handleFrame st
          (cs.map (fun p => Frame.chunk fi p.1 p.2)) =
        ⟨[], none, st.saved ++ [(acc ++ cs.map Prod.snd).flatten], false, br⟩ := by
  intro cs
  induction cs with
  | nil => intro st m acc _ _ _ _ hne; exact absurd rfl hne
  | cons cd rest ih =>
    intro st m acc hc hmeta hdata htc _
    rw [List.map_cons, List.foldl_cons, handleFrame_chunk hc]
    simp only [List.length_cons] at htc
    cases rest with
    | nil =>
      simp only [List.length_nil] at htc
      rw [handleChunkData_save cd.2 hmeta (by rw [hdata]; omega)]
      rw [List.map_nil, List.foldl_nil]
      refine ⟨st.bytesReceived + cd.2.length, ?_⟩
      rw [hdata]
      simp [hc]
    | cons cd2 rest2 =>
      have hrne : cd2 :: rest2 ≠ [] := List.cons_ne_nil _ _
      simp only [List.length_cons] at htc
      rw [handleChunkData_acc cd.2 hmeta (by rw [hdata]; omega)]
      obtain ⟨br, hbr⟩ := ih
        { st with currentFileData := st.currentFileData ++ [cd.2],
                  bytesReceived := st.bytesReceived + cd.2.length }
        m (acc ++ [cd.2]) hc hmeta (by rw [hdata]) (by
          simp only [List.length_append, List.length_cons, List.length_nil]
          omega) hrne
      refine ⟨br, ?_⟩
      rw [hbr]
      simp

lemma chunksFrom_ne_nil {f : Bytes} (hne : f ≠ []) : chunksFrom f 0 ≠ [] := by
  have hlt : 0 < f.length := List.length_pos.mpr hne
  rw [chunksFrom_step hlt]
  exact List.cons_ne_nil _ _

lemma fold_file (fi : Nat) (f : Bytes) (st : DirectRecv)
    (hc : st.completed = false) (hne : f ≠ []) :
    ∃ br, List.foldl handleFrame st (senderFramesFile fi f) =
      ⟨[], none, st.saved ++ [f], false, br⟩ := by
  rw [senderFramesFile, List.foldl_cons, handleFrame_metadata hc]
  have hcs : (chunksFrom f 0).enum.map Prod.snd = chunksFrom f 0 :=
    List.enum_map_snd _
  have hlen : (f.length + CHUNK_SIZE - 1) / CHUNK_SIZE =
      ([] : List Bytes).length + ((chunksFrom f 0).enum).length := by
    rw [List.enum_length, chunksFrom_length f f.length 0 (by omega)]
    simp
  have hene : (chunksFrom f 0).enum ≠ [] := by
    intro hh
    have := chunksFrom_ne_nil hne
    rw [← hcs, hh] at this
    exact this rfl
  obtain ⟨br, hbr⟩ := fold_chunks fi ((chunksFrom f 0).enum)
    (⟨[], some (FileMeta.mk fi f.length ((f.length + CHUNK_SIZE - 1) / CHUNK_SIZE)),
      st.saved, st.completed, st.bytesReceived⟩ : DirectRecv)
    (FileMeta.mk fi f.length ((f.length + CHUNK_SIZE - 1) / CHUNK_SIZE)) [] hc
    rfl rfl hlen hene
  refine ⟨br, ?_⟩
  rw [hbr, hcs]
  have hfl : ([] ++ chunksFrom f 0 : List Bytes).flatten = f := by
    rw [List.nil_append, chunksFrom_join f f.length 0 (by omega), List.drop_zero]
  rw [hfl]

lemma fold_files :
    ∀ (files : List Bytes) (k : Nat) (st : DirectRecv),
      st.completed = false → (∀ f ∈ files, f ≠ []) →
      (List.foldl handleFrame st
          (((files.enumFrom k).map (fun p => senderFramesFile p.1 p.2)).flatten)).saved
        = st.saved ++ files ∧
      (List.foldl handleFrame st
          (((files.enumFrom k).map (fun p => senderFramesFile p.1 p.2)).flatten)).completed
        = false := by
  intro files
  induction files with
  | nil =>
    intro k st hc _
    simp [hc]
  | cons f rest ih =>
    intro k st hc hpos
    rw [List.enumFrom_cons, List.map_cons, List.flatten_cons, List.foldl_append]
    obtain ⟨br, hbr⟩ := fold_file k f st hc (hpos f (List.mem_cons_self _ _))
    rw [hbr]
    obtain ⟨h1, h2⟩ := ih (k + 1)
      ⟨[], none, st.saved ++ [f], false, br⟩ rfl
      (fun g hg => hpos g (List.mem_cons_of_mem _ hg))
    rw [h1, h2]
    constructor
    · simp
    · rfl

/-- C2 (amended to files of positive size): on the direct path the sender
emits per file one metadata frame whose declared `totalChunks` equals the
number of chunk frames actually emitted, namely `⌈size/65536⌉`; every chunk
carries 65536 bytes except the last, which carries `size mod 65536` bytes
(65536 when `size` is a multiple); the receiver reassembles every file
byte-identically and the transfer completes; and a 204800-byte file yields
exactly chunk sizes 65536, 65536, 65536, 8192 and reassembles to itself.
(A zero-size file — excluded here — yields `totalChunks = 0` and is never
finalized by the receiver; see the counterexample.) -/
theorem direct_path_chunk_transfer (files : List Bytes)
    (hpos : ∀ f ∈ files, f ≠ []) :
    (runDirect (senderFrames files)).saved = files ∧
    (runDirect (senderFrames files)).completed = true ∧
    (∀ f : Bytes,
      (chunksFrom f 0).length = (f.length + CHUNK_SIZE - 1) / CHUNK_SIZE) ∧
    (∀ f : Bytes, f ≠ [] → (chunksFrom f 0).map List.length =
      List.replicate ((f.length - 1) / CHUNK_SIZE) CHUNK_SIZE ++
        [if f.length % CHUNK_SIZE = 0 then CHUNK_SIZE
         else f.length % CHUNK_SIZE]) ∧
    (∀ f : Bytes, f.length = 204800 →
      (chunksFrom f 0).map List.length = [65536, 65536, 65536, 8192] ∧
      (chunksFrom f 0).flatten = f) := by
  have hlens : ∀ f : Bytes, f ≠ [] → (chunksFrom f 0).map List.length =
      List.replicate ((f.length - 1) / CHUNK_SIZE) CHUNK_SIZE ++
        [if f.length % CHUNK_SIZE = 0 then CHUNK_SIZE
         else f.length % CHUNK_SIZE] := by
    intro f hne
    have hlt : 0 < f.length := List.length_pos.mpr hne
    have := chunksFrom_map_length f f.length 0 (by omega) (Nat.zero_mod _) hlt
    simpa using this
  refine ⟨?_, ?_, ?_, hlens, ?_⟩
  · rw [runDirect, senderFrames, List.foldl_append]
    obtain ⟨h1, h2⟩ := fold_files files 0 directRecvInit rfl hpos
    have h1' : (List.foldl handleFrame directRecvInit
        ((files.enum.map (fun p => senderFramesFile p.1 p.2)).flatten)).saved =
      directRecvInit.saved ++ files := h1
    have h2' : (List.foldl handleFrame directRecvInit
        ((files.enum.map (fun p => senderFramesFile p.1 p.2)).flatten)).completed =
      false := h2
    rw [List.foldl_cons, List.foldl_nil, handleFrame_complete h2']
    show (List.foldl handleFrame directRecvInit
      ((files.enum.map (fun p => senderFramesFile p.1 p.2)).flatten)).saved
        = files
    rw [h1']
    rfl
  · rw [runDirect, senderFrames, List.foldl_append]
    obtain ⟨-, h2⟩ := fold_files files 0 directRecvInit rfl hpos
    have h2' : (List.foldl handleFrame directRecvInit
        ((files.enum.map (fun p => senderFramesFile p.1 p.2)).flatten)).completed =
      false := h2
    rw [List.foldl_cons, List.foldl_nil, handleFrame_complete h2']
  · intro f
    have := chunksFrom_length f f.length 0 (by omega)
    simpa using this
  · intro f hf
    have hne : f ≠ [] := by
      intro hh
      rw [hh] at hf
      simp at hf
    constructor
    · rw [hlens f hne, hf]
      norm_num [CHUNK_SIZE]
      decide
    · have := chunksFrom_join f f.length 0 (by omega)
      simpa using this

/-- Counterexample to C2 as stated for a zero-size file: the sender emits a
metadata frame with `totalChunks = 0` and no chunk frames, and the receiver
marks the transfer completed without ever finalizing the file — nothing is
reassembled, so the reassembled bytes do not equal the sender's input. -/
theorem direct_path_zero_size_file_cex :
    (runDirect (senderFrames [[]])).saved ≠ [[]] ∧
    (runDirect (senderFrames [[]])).saved = [] ∧
    (runDirect (senderFrames [[]])).completed = true := by
  have hch : chunksFrom ([] : Bytes) 0 = [] := chunksFrom_stop (by simp)
  have hsf : senderFrames [[]] =
      [Frame.metadata ⟨0, 0, 0⟩, Frame.complete] := by
    rw [senderFrames]
    norm_num [senderFramesFile, hch, CHUNK_SIZE]
  rw [hsf, runDirect, List.foldl_cons, handleFrame_metadata rfl,
    List.foldl_cons, List.foldl_nil]
  rw [handleFrame_complete rfl]
  refine ⟨by simp [directRecvInit], rfl, rfl⟩

/-- Witness for `direct_path_chunk_transfer`: a one-file transfer of three
bytes reassembles byte-identically. -/
theorem direct_path_chunk_transfer_witness :
    (runDirect (senderFrames [[1, 2, 3]])).saved = [[1, 2, 3]] :=
  (direct_path_chunk_transfer [[1, 2, 3]] (by simp)).1

/-! ### Relay-path transfer — src/web/static/js/file-transfer.js
`sendViaRelay`, `handleRelayChunk`, `saveAllRelayedFiles`

Relay chunks are JSON envelopes `{transferId, fileIndex, chunkIndex, data,
isLast}`; the base64 encode/decode pair (`arrayBufferToBase64` /
`base64ToArrayBuffer`) is the identity on the byte level and the `data`
field is modelled as the raw bytes.  The receiver stores chunks in the
sparse JS array `fileChunks[fileIndex][chunkIndex]`; assigning index `i`
beyond a JS array's length extends it with holes, and `new Blob(chunks)`
stringifies a hole to the 9 UTF-8 bytes of `"undefined"`.  `setSparse` /
`getSparse` model exactly this assignment and indexing. -/

def undefinedBytes : Bytes := [117, 110, 100, 101, 102, 105, 110, 101, 100]

def setSparse {α : Type} : List (Option α) → Nat → α → List (Option α)
  | [], 0, v => [some v]
  | [], i + 1, v => none :: setSparse [] i v
  | _ :: rest, 0, v => some v :: rest
  | x :: rest, i + 1, v => x :: setSparse rest i v

def getSparse {α : Type} : List (Option α) → Nat → Option α
  | [], _ => none
  | x :: _, 0 => x
  | _ :: rest, i + 1 => getSparse rest i

lemma getSparse_setSparse {α : Type} :
    ∀ (l : List (Option α)) (i : Nat) (v : α) (j : Nat),
      getSparse (setSparse l i v) j = if j = i then some v else getSparse l j := by
  intro l
  induction l with
  | nil =>
    intro i
    induction i with
    | zero =>
      intro v j
      cases j with
      | zero => simp [setSparse, getSparse]
      | succ j => simp [setSparse, getSparse]
    | succ i ih =>
      intro v j
      cases j with
      | zero => simp [setSparse, getSparse]
      | succ j =>
        simp only [setSparse, getSparse, ih]
        by_cases hji : j = i
        · rw [if_pos hji, if_pos (by omega)]
        · rw [if_neg hji, if_neg (by omega)]
  | cons x rest ih =>
    intro i v j
    cases i with
    | zero =>
      cases j with
      | zero => simp [setSparse, getSparse]
      | succ j => simp [setSparse, getSparse]
    | succ i =>
      cases j with
      | zero => simp [setSparse, getSparse]
      | succ j =>
        simp only [setSparse, getSparse, ih]
        by_cases hji : j = i
        · rw [if_pos hji, if_pos (by omega)]
        · rw [if_neg hji, if_neg (by omega)]

lemma setSparse_length {α : Type} :
    ∀ (l : List (Option α)) (i : Nat) (v : α),
      (setSparse l i v).length = max l.length (i + 1) := by
  intro l
  induction l with
  | nil =>
    intro i
    induction i with
    | zero => intro v; simp [setSparse]
    | succ i ih =>
      intro v
      rw [setSparse, List.length_cons, ih]
      simp
  | cons x rest ih =>
    intro i v
    cases i with
    | zero => simp [setSparse]
    | succ i =>
      rw [setSparse, List.length_cons, List.length_cons, ih]
      omega

lemma getSparse_eq_getElem? {α : Type} :
    ∀ (l : List (Option α)) (j : Nat), getSparse l j = (l[j]?).getD none := by
  intro l
  induction l with
  | nil => intro j; simp [getSparse]
  | cons x rest ih =>
    intro j
    cases j with
    | zero => simp [getSparse]
    | succ j => simpa [getSparse] using ih j

/-- One relay-chunk envelope (`wsManager.sendRelayChunk` payload). -/
structure RelayEnv where
  transferId : String
  fileIndex : Nat
  chunkIndex : Nat
  data : Bytes
  isLast : Bool
  deriving DecidableEq, Repr

/-- `sendViaRelay`'s envelopes for the file at index `fi` of a transfer with
`numFiles` files: one envelope per chunk of the slicing loop with
`isLast = (fileIndex === files.length - 1) && (offset + CHUNK_SIZE >= size)`
where `offset = chunkIndex * CHUNK_SIZE`. -/
def senderRelayFile (numFiles : Nat) (tid : String) (fi : Nat) (f : Bytes) :
    List RelayEnv :=
  (chunksFrom f 0).enum.map (fun p =>
    ⟨tid, fi, p.1, p.2,
      decide (fi = numFiles - 1) &&
        decide (f.length ≤ p.1 * CHUNK_SIZE + CHUNK_SIZE)⟩)

/-- All envelopes of one relay-path transfer, in sending order. -/
def senderRelayEnvs (tid : String) (files : List Bytes) : List RelayEnv :=
  (files.enum.map (fun p => senderRelayFile files.length tid p.1 p.2)).flatten

/-- Receiver-side record of one incoming relay transfer (`fileCount` is
`transfer.files.length` from the transfer-request; file names/types do not
affect the byte-level claims). -/
structure RelayRecv where
  id : String
  fileCount : Nat
  fileChunks : List (Option (List (Option Bytes)))
  bytesReceived : Nat
  transferring : Bool
  deriving DecidableEq, Repr

/-- The receiver: its (at most one, in this model) incoming transfer record
and the files handed to the output sink so far. -/
structure RelayState where
  transfer : Option RelayRecv
  savedOut : List Bytes
  deriving DecidableEq, Repr

/-- `transfer.fileChunks[fi][ci] = data` with lazy `[]` initialization. -/
def updChunks (outer : List (Option (List (Option Bytes)))) (e : RelayEnv) :
    List (Option (List (Option Bytes))) :=
  setSparse outer e.fileIndex
    (setSparse ((getSparse outer e.fileIndex).getD []) e.chunkIndex e.data)

/-- `saveAllRelayedFiles`: for each declared file index, assemble
`fileChunks[i] || []` into a blob (holes become `"undefined"` bytes), hand
all blobs to the sink, mark completed and delete the record. -/
def saveAllRelayedFiles (st : RelayState) (t : RelayRecv) : RelayState :=
  ⟨none,
   st.savedOut ++ (List.range t.fileCount).map (fun i =>
     ((((getSparse t.fileChunks i).getD []).map
       (fun o => o.getD undefinedBytes)).flatten))⟩

/-- `handleRelayChunk`: ignore envelopes of unknown transfers, store the
chunk, and on `isLast` save everything and release the record. -/
def handleRelayChunk (st : RelayState) (e : RelayEnv) : RelayState :=
  match st.transfer with
  | none => st
  | some t =>
    if t.id = e.transferId then
      let t' : RelayRecv :=
        ⟨t.id, t.fileCount, updChunks t.fileChunks e,
          t.bytesReceived + e.data.length, true⟩
      if e.isLast then saveAllRelayedFiles st t'
      else ⟨some t', st.savedOut⟩
    else st

def runRelay (st : RelayState) (es : List RelayEnv) : RelayState :=
  es.foldl handleRelayChunk st

def innerView (outer : List (Option (List (Option Bytes)))) (fi : Nat) :
    List (Option Bytes) :=
  (getSparse outer fi).getD []

def lookup2 (outer : List (Option (List (Option Bytes)))) (fi ci : Nat) :
    Option Bytes :=
  getSparse (innerView outer fi) ci

def innerLen (outer : List (Option (List (Option Bytes)))) (fi : Nat) : Nat :=
  (innerView outer fi).length

lemma innerView_updChunks (outer : List (Option (List (Option Bytes))))
    (e : RelayEnv) (fi : Nat) :
    innerView (updChunks outer e) fi =
      if fi = e.fileIndex then
        setSparse (innerView outer e.fileIndex) e.chunkIndex e.data
      else innerView outer fi := by
  rw [innerView, updChunks, getSparse_setSparse]
  by_cases h : fi = e.fileIndex
  · rw [if_pos h, if_pos h]
    rfl
  · rw [if_neg h, if_neg h, innerView]

lemma lookup2_updChunks (outer : List (Option (List (Option Bytes))))
    (e : RelayEnv) (fi ci : Nat) :
    lookup2 (updChunks outer e) fi ci =
      if fi = e.fileIndex ∧ ci = e.chunkIndex then some e.data
      else lookup2 outer fi ci := by
  rw [lookup2, innerView_updChunks]
  by_cases h : fi = e.fileIndex
  · rw [if_pos h, getSparse_setSparse]
    by_cases h2 : ci = e.chunkIndex
    · rw [if_pos h2, if_pos ⟨h, h2⟩]
    · rw [if_neg h2, if_neg (fun hh => h2 hh.2), lookup2, h]
  · rw [if_neg h, if_neg (fun hh => h hh.1), lookup2]

lemma innerLen_updChunks (outer : List (Option (List (Option Bytes))))
    (e : RelayEnv) (fi : Nat) :
    innerLen (updChunks outer e) fi =
      if fi = e.fileIndex then
        max (innerLen outer e.fileIndex) (e.chunkIndex + 1)
      else innerLen outer fi := by
  rw [innerLen, innerView_updChunks]
  by_cases h : fi = e.fileIndex
  · rw [if_pos h, if_pos h, setSparse_length]
    rfl
  · rw [if_neg h, if_neg h]
    rfl

def foldUpd (outer : List (Option (List (Option Bytes))))
    (es : List RelayEnv) : List (Option (List (Option Bytes))) :=
  es.foldl updChunks outer

lemma lookup2_foldUpd_absent (fi ci : Nat) :
    ∀ (es : List RelayEnv) (outer),
      (∀ e ∈ es, ¬ (e.fileIndex = fi ∧ e.chunkIndex = ci)) →
      lookup2 (foldUpd outer es) fi ci = lookup2 outer fi ci := by
  intro es
  induction es with
  | nil => intro outer _; rfl
  | cons a rest ih =>
    intro outer h
    show lookup2 (foldUpd (updChunks outer a) rest) fi ci = _
    rw [ih (updChunks outer a) (fun e he => h e (List.mem_cons_of_mem _ he)),
      lookup2_updChunks,
      if_neg (fun hh => h a (List.mem_cons_self _ _) ⟨hh.1.symm, hh.2.symm⟩)]

lemma lookup2_foldUpd_mem :
    ∀ (es : List RelayEnv) (outer) (e : RelayEnv), e ∈ es →
      (∀ e1 ∈ es, ∀ e2 ∈ es, e1.fileIndex = e2.fileIndex →
        e1.chunkIndex = e2.chunkIndex → e1.data = e2.data) →
      lookup2 (foldUpd outer es) e.fileIndex e.chunkIndex = some e.data := by
  intro es
  induction es with
  | nil => intro outer e he; cases he
  | cons a rest ih =>
    intro outer e he hfun
    show lookup2 (foldUpd (updChunks outer a) rest) e.fileIndex e.chunkIndex
      = some e.data
    rcases List.mem_cons.mp he with rfl | hrest
    · by_cases habs : ∀ e2 ∈ rest,
          ¬ (e2.fileIndex = e.fileIndex ∧ e2.chunkIndex = e.chunkIndex)
      · rw [lookup2_foldUpd_absent _ _ rest (updChunks outer e) habs,
          lookup2_updChunks, if_pos ⟨rfl, rfl⟩]
      · push_neg at habs
        obtain ⟨e2, he2, hk1, hk2⟩ := habs
        have hdata : e2.data = e.data :=
          hfun e2 (List.mem_cons_of_mem _ he2) e (List.mem_cons_self _ _) hk1 hk2
        have := ih (updChunks outer e) e2 he2
          (fun x hx y hy => hfun x (List.mem_cons_of_mem _ hx)
            y (List.mem_cons_of_mem _ hy))
        rw [← hk1, ← hk2, this, hdata]
    · exact ih (updChunks outer a) e hrest
        (fun x hx y hy => hfun x (List.mem_cons_of_mem _ hx)
          y (List.mem_cons_of_mem _ hy))

lemma innerLen_foldUpd_le (fi B : Nat) :
    ∀ (es : List RelayEnv) (outer), innerLen outer fi ≤ B →
      (∀ e ∈ es, e.fileIndex = fi → e.chunkIndex < B) →
      innerLen (foldUpd outer es) fi ≤ B := by
  intro es
  induction es with
  | nil => intro outer h0 _; exact h0
  | cons a rest ih =>
    intro outer h0 hel
    show innerLen (foldUpd (updChunks outer a) rest) fi ≤ B
    refine ih (updChunks outer a) ?_
      (fun e he hfi => hel e (List.mem_cons_of_mem _ he) hfi)
    rw [innerLen_updChunks]
    by_cases h : fi = a.fileIndex
    · rw [if_pos h]
      have hci : a.chunkIndex < B := hel a (List.mem_cons_self _ _) h.symm
      rw [← h]
      omega
    · rw [if_neg h]
      exact h0

lemma innerLen_updChunks_mono (outer : List (Option (List (Option Bytes))))
    (e : RelayEnv) (fi : Nat) :
    innerLen outer fi ≤ innerLen (updChunks outer e) fi := by
  rw [innerLen_updChunks]
  by_cases h : fi = e.fileIndex
  · rw [if_pos h, h]
    omega
  · rw [if_neg h]

lemma innerLen_foldUpd_mono (fi : Nat) :
    ∀ (es : List RelayEnv) (outer),
      innerLen outer fi ≤ innerLen (foldUpd outer es) fi := by
  intro es
  induction es with
  | nil => intro outer; exact le_rfl
  | cons a rest ih =>
    intro outer
    exact le_trans (innerLen_updChunks_mono outer a fi) (ih (updChunks outer a))

lemma innerLen_foldUpd_ge :
    ∀ (es : List RelayEnv) (outer) (e : RelayEnv), e ∈ es →
      e.chunkIndex + 1 ≤ innerLen (foldUpd outer es) e.fileIndex := by
  intro es
  induction es with
  | nil => intro outer e he; cases he
  | cons a rest ih =>
    intro outer e he
    rcases List.mem_cons.mp he with rfl | hrest
    · refine le_trans ?_ (innerLen_foldUpd_mono e.fileIndex rest (updChunks outer e))
      rw [innerLen_updChunks, if_pos rfl]
      omega
    · exact ih (updChunks outer a) e hrest

lemma mem_senderRelayFile {n : Nat} {tid : String} {fi : Nat} {f : Bytes}
    {e : RelayEnv} :
    e ∈ senderRelayFile n tid fi f ↔
      ∃ ci d, (chunksFrom f 0)[ci]? = some d ∧
        e = ⟨tid, fi, ci, d,
          decide (fi = n - 1) &&
            decide (f.length ≤ ci * CHUNK_SIZE + CHUNK_SIZE)⟩ := by
  rw [senderRelayFile, List.mem_map]
  constructor
  · rintro ⟨p, hp, rfl⟩
    exact ⟨p.1, p.2, List.mem_enum_iff_getElem?.mp hp, rfl⟩
  · rintro ⟨ci, d, hcd, rfl⟩
    exact ⟨(ci, d), List.mem_enum_iff_getElem?.mpr hcd, rfl⟩

lemma mem_senderRelayEnvs {tid : String} {files : List Bytes} {e : RelayEnv} :
    e ∈ senderRelayEnvs tid files ↔
      ∃ fi f, files[fi]? = some f ∧
        e ∈ senderRelayFile files.length tid fi f := by
  rw [senderRelayEnvs, List.mem_flatten]
  constructor
  · rintro ⟨l, hl, hel⟩
    rw [List.mem_map] at hl
    obtain ⟨p, hp, rfl⟩ := hl
    exact ⟨p.1, p.2, List.mem_enum_iff_getElem?.mp hp, hel⟩
  · rintro ⟨fi, f, hf, hel⟩
    exact ⟨senderRelayFile files.length tid fi f,
      List.mem_map.mpr ⟨(fi, f), List.mem_enum_iff_getElem?.mpr hf, rfl⟩, hel⟩

lemma senderRelayEnvs_tid {tid : String} {files : List Bytes} {e : RelayEnv}
    (he : e ∈ senderRelayEnvs tid files) : e.transferId = tid := by
  obtain ⟨fi, f, -, hel⟩ := mem_senderRelayEnvs.mp he
  obtain ⟨ci, d, -, rfl⟩ := mem_senderRelayFile.mp hel
  rfl

lemma senderRelayEnvs_functional {tid : String} {files : List Bytes} :
    ∀ e1 ∈ senderRelayEnvs tid files, ∀ e2 ∈ senderRelayEnvs tid files,
      e1.fileIndex = e2.fileIndex → e1.chunkIndex = e2.chunkIndex →
      e1 = e2 := by
  intro e1 he1 e2 he2 hfi hci
  obtain ⟨fi1, f1, hf1, hel1⟩ := mem_senderRelayEnvs.mp he1
  obtain ⟨ci1, d1, hcd1, rfl⟩ := mem_senderRelayFile.mp hel1
  obtain ⟨fi2, f2, hf2, hel2⟩ := mem_senderRelayEnvs.mp he2
  obtain ⟨ci2, d2, hcd2, rfl⟩ := mem_senderRelayFile.mp hel2
  simp only at hfi hci
  subst hfi hci
  rw [hf1] at hf2
  have hff := Option.some.inj hf2
  subst hff
  rw [hcd1] at hcd2
  have hdd := Option.some.inj hcd2
  subst hdd
  rfl

lemma senderRelayEnvs_cover {tid : String} {files : List Bytes} {fi : Nat}
    {f : Bytes} {ci : Nat} {d : Bytes} (hf : files[fi]? = some f)
    (hcd : (chunksFrom f 0)[ci]? = some d) :
    (⟨tid, fi, ci, d,
      decide (fi = files.length - 1) &&
        decide (f.length ≤ ci * CHUNK_SIZE + CHUNK_SIZE)⟩ : RelayEnv) ∈
      senderRelayEnvs tid files :=
  mem_senderRelayEnvs.mpr ⟨fi, f, hf,
    mem_senderRelayFile.mpr ⟨ci, d, hcd, rfl⟩⟩

lemma handleRelayChunk_step {st : RelayState} {t : RelayRecv} {e : RelayEnv}
    (htr : st.transfer = some t) (hid : t.id = e.transferId)
    (hlast : e.isLast = false) :
    handleRelayChunk st e =
      ⟨some ⟨t.id, t.fileCount, updChunks t.fileChunks e,
        t.bytesReceived + e.data.length, true⟩, st.savedOut⟩ := by
  rw [handleRelayChunk.eq_def, htr]
  simp only [hid, if_true, hlast]
  rfl

lemma handleRelayChunk_last {st : RelayState} {t : RelayRecv} {e : RelayEnv}
    (htr : st.transfer = some t) (hid : t.id = e.transferId)
    (hlast : e.isLast = true) :
    handleRelayChunk st e =
      saveAllRelayedFiles st
        ⟨t.id, t.fileCount, updChunks t.fileChunks e,
          t.bytesReceived + e.data.length, true⟩ := by
  rw [handleRelayChunk.eq_def, htr]
  simp only [hid, if_true, hlast]

lemma runRelay_chunks :
    ∀ (es : List RelayEnv) (st : RelayState) (t : RelayRecv),
      st.transfer = some t →
      (∀ e ∈ es, e.isLast = false ∧ e.transferId = t.id) →
      ∃ br tr, runRelay st es =
        ⟨some ⟨t.id, t.fileCount, foldUpd t.fileChunks es, br, tr⟩,
          st.savedOut⟩ := by
  intro es
  induction es with
  | nil =>
    intro st t htr _
    refine ⟨t.bytesReceived, t.transferring, ?_⟩
    rw [runRelay, List.foldl_nil]
    rcases st with ⟨tr, so⟩
    cases htr
    rfl
  | cons a rest ih =>
    intro st t htr hall
    obtain ⟨hlast, hid⟩ := hall a (List.mem_cons_self _ _)
    rw [runRelay, List.foldl_cons,
      handleRelayChunk_step htr hid.symm hlast]
    obtain ⟨br, tr, hbr⟩ := ih
      ⟨some ⟨t.id, t.fileCount, updChunks t.fileChunks a,
        t.bytesReceived + a.data.length, true⟩, st.savedOut⟩
      ⟨t.id, t.fileCount, updChunks t.fileChunks a,
        t.bytesReceived + a.data.length, true⟩ rfl
      (fun e he => hall e (List.mem_cons_of_mem _ he))
    exact ⟨br, tr, hbr⟩

lemma getElem?_some_mem {α : Type} {l : List α} {i : Nat} {a : α}
    (h : l[i]? = some a) : a ∈ l := by
  obtain ⟨hlt, rfl⟩ := List.getElem?_eq_some.mp h
  exact l.getElem_mem hlt

lemma innerLen_nil (fi : Nat) : innerLen [] fi = 0 := rfl

lemma assemble_foldUpd {tid : String} {files : List Bytes}
    (hpos : ∀ f ∈ files, f ≠ []) {es : List RelayEnv}
    (hmem : ∀ e : RelayEnv, e ∈ es ↔ e ∈ senderRelayEnvs tid files)
    {fi : Nat} {f : Bytes} (hf : files[fi]? = some f) :
    ((innerView (foldUpd [] es) fi).map
      (fun o => o.getD undefinedBytes)).flatten = f := by
  have hfne : f ≠ [] := hpos f (getElem?_some_mem hf)
  have hnc : 0 < (chunksFrom f 0).length :=
    List.length_pos.mpr (chunksFrom_ne_nil hfne)
  have hfun : ∀ e1 ∈ es, ∀ e2 ∈ es, e1.fileIndex = e2.fileIndex →
      e1.chunkIndex = e2.chunkIndex → e1.data = e2.data := by
    intro e1 h1 e2 h2 ha hb
    rw [senderRelayEnvs_functional e1 ((hmem e1).mp h1) e2 ((hmem e2).mp h2) ha hb]
  have hci_lt : ∀ e ∈ es, e.fileIndex = fi →
      e.chunkIndex < (chunksFrom f 0).length := by
    intro e he hfi
    obtain ⟨fi', f', hf', hel⟩ := mem_senderRelayEnvs.mp ((hmem e).mp he)
    obtain ⟨ci, d, hcd, rfl⟩ := mem_senderRelayFile.mp hel
    simp only at hfi
    subst hfi
    rw [hf] at hf'
    have hff := Option.some.inj hf'
    subst hff
    obtain ⟨hlt, -⟩ := List.getElem?_eq_some.mp hcd
    exact hlt
  have hLlen : (innerView (foldUpd [] es) fi).length =
      (chunksFrom f 0).length := by
    have hle := innerLen_foldUpd_le fi (chunksFrom f 0).length es []
      (by rw [innerLen_nil]; omega) hci_lt
    have hlastEnv : (⟨tid, fi, (chunksFrom f 0).length - 1,
        (chunksFrom f 0).get ⟨(chunksFrom f 0).length - 1, by omega⟩,
        decide (fi = files.length - 1) &&
          decide (f.length ≤ ((chunksFrom f 0).length - 1) * CHUNK_SIZE +
            CHUNK_SIZE)⟩ : RelayEnv) ∈ es :=
      (hmem _).mpr (senderRelayEnvs_cover hf
        (List.getElem?_eq_getElem (by omega)))
    have hge := innerLen_foldUpd_ge es [] _ hlastEnv
    simp only at hge
    rw [innerLen] at hle hge
    omega
  have hLget : ∀ (j : Nat) (hj : j < (chunksFrom f 0).length),
      getSparse (innerView (foldUpd [] es) fi) j =
        some ((chunksFrom f 0).get ⟨j, hj⟩) := by
    intro j hj
    have henv : (⟨tid, fi, j, (chunksFrom f 0).get ⟨j, hj⟩,
        decide (fi = files.length - 1) &&
          decide (f.length ≤ j * CHUNK_SIZE + CHUNK_SIZE)⟩ : RelayEnv) ∈ es :=
      (hmem _).mpr (senderRelayEnvs_cover hf (List.getElem?_eq_getElem hj))
    have := lookup2_foldUpd_mem es [] _ henv hfun
    simpa [lookup2] using this
  have hL : innerView (foldUpd [] es) fi = (chunksFrom f 0).map some := by
    refine List.ext_getElem? ?_
    intro j
    by_cases hj : j < (chunksFrom f 0).length
    · have hj2 : j < (innerView (foldUpd [] es) fi).length := by omega
      have h1 : (innerView (foldUpd [] es) fi)[j]? =
          some ((innerView (foldUpd [] es) fi).get ⟨j, hj2⟩) :=
        List.getElem?_eq_getElem hj2
      have h2 := hLget j hj
      rw [getSparse_eq_getElem?, h1] at h2
      simp only [Option.getD_some] at h2
      rw [h1, h2, List.getElem?_map, List.getElem?_eq_getElem hj]
      rfl
    · have hn1 : (innerView (foldUpd [] es) fi)[j]? = none :=
        List.getElem?_eq_none (by omega)
      have hn2 : ((chunksFrom f 0).map some)[j]? = none :=
        List.getElem?_eq_none (by rw [List.length_map]; omega)
      rw [hn1, hn2]
  rw [hL, List.map_map]
  have hmapid : ∀ l : List Bytes,
      l.map ((fun o => Option.getD o undefinedBytes) ∘ some) = l := by
    intro l
    induction l with
    | nil => rfl
    | cons a t ih =>
      rw [List.map_cons, ih]
      rfl
  rw [hmapid]
  have := chunksFrom_join f f.length 0 (by omega)
  simpa using this

/-- C3 (amended to arrival orders that deliver the `isLast` envelope after
every other envelope, and to files of positive size): the receiver assembles
each file as the concatenation of its chunks in chunk-index order,
byte-identically to the sender's input, for every such permutation of the
envelopes; no file is saved and the record is kept before the `isLast`
envelope is processed, and processing it saves every file and releases the
record.  (If the `isLast` envelope arrives before some other envelope, the
transfer completes early with missing chunks; see the counterexample.) -/
theorem relay_out_of_order_reassembly (tid : String) (files : List Bytes)
    (hne : files ≠ []) (hpos : ∀ f ∈ files, f ≠ [])
    (es : List RelayEnv) (hperm : es.Perm (senderRelayEnvs tid files))
    (hpre : ∀ e ∈ es.dropLast, e.isLast = false) :
    (∀ k, k < es.length →
      (runRelay ⟨some ⟨tid, files.length, [], 0, false⟩, []⟩
        (es.take k)).savedOut = [] ∧
      (runRelay ⟨some ⟨tid, files.length, [], 0, false⟩, []⟩
        (es.take k)).transfer ≠ none) ∧
    (runRelay ⟨some ⟨tid, files.length, [], 0, false⟩, []⟩ es).savedOut
      = files ∧
    (runRelay ⟨some ⟨tid, files.length, [], 0, false⟩, []⟩ es).transfer
      = none := by
  have hmem : ∀ e : RelayEnv, e ∈ es ↔ e ∈ senderRelayEnvs tid files :=
    fun e => hperm.mem_iff
  -- the unique isLast envelope: last chunk of the last file
  have hlenpos : 0 < files.length := List.length_pos.mpr hne
  have hflast : files[files.length - 1]? =
      some (files.get ⟨files.length - 1, by omega⟩) :=
    List.getElem?_eq_getElem (by omega)
  set flast := files.get ⟨files.length - 1, by omega⟩ with hflastdef
  have hflastne : flast ≠ [] := hpos _ (getElem?_some_mem hflast)
  have hncl : 0 < (chunksFrom flast 0).length :=
    List.length_pos.mpr (chunksFrom_ne_nil hflastne)
  have hlastflag : (decide (files.length - 1 = files.length - 1) &&
      decide (flast.length ≤ ((chunksFrom flast 0).length - 1) * CHUNK_SIZE +
        CHUNK_SIZE)) = true := by
    rw [Bool.and_eq_true, decide_eq_true_eq, decide_eq_true_eq]
    refine ⟨rfl, ?_⟩
    have hlen := chunksFrom_length flast flast.length 0 (by omega)
    simp only [Nat.sub_zero] at hlen
    simp only [CHUNK_SIZE] at *
    omega
  have hlastEnv : (⟨tid, files.length - 1, (chunksFrom flast 0).length - 1,
      (chunksFrom flast 0).get ⟨(chunksFrom flast 0).length - 1, by omega⟩,
      decide (files.length - 1 = files.length - 1) &&
        decide (flast.length ≤ ((chunksFrom flast 0).length - 1) * CHUNK_SIZE +
          CHUNK_SIZE)⟩ : RelayEnv) ∈ es :=
    (hmem _).mpr (senderRelayEnvs_cover hflast
      (List.getElem?_eq_getElem (by omega)))
  have hesne : es ≠ [] := fun hh => by
    rw [hh] at hlastEnv
    cases hlastEnv
  -- the arrival order's last element is the isLast envelope
  have hsplit : es.dropLast ++ [es.getLast hesne] = es :=
    List.dropLast_concat_getLast hesne
  have hlstLast : (es.getLast hesne).isLast = true := by
    have hinsplit := hlastEnv
    rw [← hsplit] at hinsplit
    rcases List.mem_append.mp hinsplit with hin | hin
    · have hfalse : (decide (files.length - 1 = files.length - 1) &&
          decide (flast.length ≤ ((chunksFrom flast 0).length - 1) * CHUNK_SIZE +
            CHUNK_SIZE)) = false := hpre _ hin
      rw [hlastflag] at hfalse
      cases hfalse
    · rw [← List.mem_singleton.mp hin]
      exact hlastflag
  have hlstTid : (es.getLast hesne).transferId = tid :=
    senderRelayEnvs_tid ((hmem _).mp (es.getLast_mem hesne))
  have hpreAll : ∀ e ∈ es.dropLast, e.isLast = false ∧
      e.transferId = (⟨tid, files.length, [], 0, false⟩ : RelayRecv).id := by
    intro e he
    refine ⟨hpre e he, ?_⟩
    have hems : e ∈ es := by
      rw [← hsplit]
      exact List.mem_append.mpr (Or.inl he)
    exact senderRelayEnvs_tid ((hmem e).mp hems)
  constructor
  · intro k hk
    have htake : ∀ e ∈ es.take k, e.isLast = false ∧
        e.transferId = (⟨tid, files.length, [], 0, false⟩ : RelayRecv).id := by
      intro e he
      refine hpreAll e ?_
      rw [List.dropLast_eq_take]
      have : es.take k = (es.take (es.length - 1)).take k := by
        rw [List.take_take, min_eq_left (by omega)]
      rw [this] at he
      exact List.mem_of_mem_take he
    obtain ⟨br, tr, hrun⟩ := runRelay_chunks (es.take k)
      ⟨some ⟨tid, files.length, [], 0, false⟩, []⟩
      ⟨tid, files.length, [], 0, false⟩ rfl htake
    rw [hrun]
    exact ⟨rfl, by simp⟩
  · obtain ⟨br, tr, hrun⟩ := runRelay_chunks es.dropLast
      ⟨some ⟨tid, files.length, [], 0, false⟩, []⟩
      ⟨tid, files.length, [], 0, false⟩ rfl hpreAll
    have hruneq : runRelay ⟨some ⟨tid, files.length, [], 0, false⟩, []⟩ es =
        handleRelayChunk
          (runRelay ⟨some ⟨tid, files.length, [], 0, false⟩, []⟩ es.dropLast)
          (es.getLast hesne) := by
      conv_lhs => rw [← hsplit]
      rw [runRelay, runRelay, List.foldl_append, List.foldl_cons,
        List.foldl_nil]
    rw [hruneq, hrun, handleRelayChunk_last rfl hlstTid.symm hlstLast,
      saveAllRelayedFiles]
    have hchunks : updChunks (foldUpd [] es.dropLast) (es.getLast hesne) =
        foldUpd [] es := by
      conv_rhs => rw [← hsplit]
      show _ = List.foldl updChunks [] (es.dropLast ++ [es.getLast hesne])
      rw [List.foldl_append, List.foldl_cons, List.foldl_nil]
      rfl
    refine ⟨?_, rfl⟩
    simp only [hchunks, List.nil_append]
    refine List.ext_getElem? ?_
    intro i
    by_cases hi : i < files.length
    · rw [List.getElem?_map, List.getElem?_range (by simpa using hi)]
      have hfi : files[i]? = some (files.get ⟨i, hi⟩) :=
        List.getElem?_eq_getElem hi
      rw [List.getElem?_eq_getElem hi]
      simp only [Option.map_some']
      have := assemble_foldUpd hpos hmem hfi
      rw [innerView] at this
      rw [this]
      rfl
    · have hn1 : ((List.range files.length).map (fun i =>
          ((((getSparse (foldUpd [] es) i).getD []).map
            (fun o => o.getD undefinedBytes)).flatten)))[i]? = none :=
        List.getElem?_eq_none
          (by simp only [List.length_map, List.length_range]; omega)
      have hn2 : files[i]? = none := List.getElem?_eq_none (by omega)
      rw [hn1, hn2]

lemma chunksFrom_single {b : Nat} : chunksFrom [b] 0 = [[b]] := by
  rw [chunksFrom_step (by simp)]
  rw [chunksFrom_stop (by simp [CHUNK_SIZE])]
  rw [List.drop_zero, List.take_of_length_le (by simp [CHUNK_SIZE])]

lemma senderRelayEnvs_pair :
    senderRelayEnvs "t" [[7], [9]] =
      [⟨"t", 0, 0, [7], false⟩, ⟨"t", 1, 0, [9], true⟩] := by
  rw [senderRelayEnvs]
  have he : ([[7], [9]] : List Bytes).enum = [(0, [7]), (1, [9])] := rfl
  rw [he, List.map_cons, List.map_cons, List.map_nil, senderRelayFile,
    senderRelayFile, chunksFrom_single, chunksFrom_single]
  decide

/-- Counterexample to C3 as stated: for the two-file transfer `[[7], [9]]`,
the arrival order that delivers the `isLast` envelope first is a permutation
of the transfer's relay-chunk envelopes, yet the receiver completes
immediately, saves file 0 as empty instead of `[7]`, releases the record and
drops the remaining envelope — reassembly is not byte-identical. -/
theorem relay_isLast_first_cex :
    ([⟨"t", 1, 0, [9], true⟩,
      ⟨"t", 0, 0, [7], false⟩] : List RelayEnv).Perm
      (senderRelayEnvs "t" [[7], [9]]) ∧
    (runRelay ⟨some ⟨"t", 2, [], 0, false⟩, []⟩
      [⟨"t", 1, 0, [9], true⟩, ⟨"t", 0, 0, [7], false⟩]).savedOut
      ≠ [[7], [9]] ∧
    (runRelay ⟨some ⟨"t", 2, [], 0, false⟩, []⟩
      [⟨"t", 1, 0, [9], true⟩, ⟨"t", 0, 0, [7], false⟩]).savedOut
      = [[], [9]] ∧
    (runRelay ⟨some ⟨"t", 2, [], 0, false⟩, []⟩
      [⟨"t", 1, 0, [9], true⟩, ⟨"t", 0, 0, [7], false⟩]).transfer = none := by
  refine ⟨?_, by decide, by decide, by decide⟩
  rw [senderRelayEnvs_pair]
  exact List.Perm.swap _ _ _

/-- Witness for `relay_out_of_order_reassembly`: the in-order delivery of the
two-file transfer `[[7], [9]]` reassembles both files and releases the
record. -/
theorem relay_out_of_order_reassembly_witness :
    (runRelay ⟨some ⟨"t", 2, [], 0, false⟩, []⟩
      (senderRelayEnvs "t" [[7], [9]])).savedOut = [[7], [9]] ∧
    (runRelay ⟨some ⟨"t", 2, [], 0, false⟩, []⟩
      (senderRelayEnvs "t" [[7], [9]])).transfer = none := by
  have h := relay_out_of_order_reassembly "t" [[7], [9]] (by decide) (by decide)
    (senderRelayEnvs "t" [[7], [9]]) (List.Perm.refl _)
    (by rw [senderRelayEnvs_pair]; decide)
  exact ⟨h.2.1, h.2.2⟩

lemma handleRelayChunk_no_last {st : RelayState} {e : RelayEnv}
    (h : e.isLast = false) :
    (handleRelayChunk st e).savedOut = st.savedOut ∧
    (handleRelayChunk st e).transfer.isSome = st.transfer.isSome := by
  rw [handleRelayChunk.eq_def]
  split
  · exact ⟨rfl, rfl⟩
  · next t heq =>
    by_cases hid : t.id = e.transferId
    · rw [if_pos hid, if_neg (by rw [h]; exact Bool.false_ne_true)]
      refine ⟨rfl, ?_⟩
      rw [heq]
      rfl
    · rw [if_neg hid]
      exact ⟨rfl, rfl⟩

lemma runRelay_no_last :
    ∀ (es : List RelayEnv) (st : RelayState),
      (∀ e ∈ es, e.isLast = false) →
      (runRelay st es).savedOut = st.savedOut ∧
      (runRelay st es).transfer.isSome = st.transfer.isSome := by
  intro es
  induction es with
  | nil => intro st _; exact ⟨rfl, rfl⟩
  | cons a rest ih =>
    intro st h
    have h1 := @handleRelayChunk_no_last st a (h a (List.mem_cons_self _ _))
    have h2 := ih (handleRelayChunk st a)
      (fun e he => h e (List.mem_cons_of_mem _ he))
    exact ⟨h2.1.trans h1.1, h2.2.trans h1.2⟩

/-- C10: when the last file of a relay transfer has size 0, the sender's
chunk loop emits no envelope for that file, so no envelope carries
`isLast = true`; consequently, for every arrival order, the receiver never
saves any file and never completes or releases the transfer. -/
theorem relay_zero_size_last_file (tid : String) (files : List Bytes)
    (hlast : files.getLast? = some []) :
    (∀ e ∈ senderRelayEnvs tid files, e.fileIndex ≠ files.length - 1) ∧
    (∀ e ∈ senderRelayEnvs tid files, e.isLast = false) ∧
    (∀ es : List RelayEnv, es.Perm (senderRelayEnvs tid files) →
      ∀ st : RelayState, (runRelay st es).savedOut = st.savedOut ∧
        (runRelay st es).transfer.isSome = st.transfer.isSome) := by
  have hgetl : files[files.length - 1]? = some [] := by
    rw [← List.getLast?_eq_getElem?]
    exact hlast
  have hfidx : ∀ e ∈ senderRelayEnvs tid files,
      e.fileIndex ≠ files.length - 1 := by
    intro e he hfi
    obtain ⟨fi, f, hf, hel⟩ := mem_senderRelayEnvs.mp he
    obtain ⟨ci, d, hcd, rfl⟩ := mem_senderRelayFile.mp hel
    simp only at hfi
    subst hfi
    rw [hgetl] at hf
    have hff := Option.some.inj hf
    subst hff
    rw [chunksFrom_stop (by simp)] at hcd
    simp at hcd
  have hislast : ∀ e ∈ senderRelayEnvs tid files, e.isLast = false := by
    intro e he
    have hne := hfidx e he
    obtain ⟨fi, f, hf, hel⟩ := mem_senderRelayEnvs.mp he
    obtain ⟨ci, d, hcd, rfl⟩ := mem_senderRelayFile.mp hel
    simp only at hne ⊢
    rw [decide_eq_false hne, Bool.false_and]
  refine ⟨hfidx, hislast, ?_⟩
  intro es hpermEs st
  exact runRelay_no_last es st
    (fun e he => hislast e (hpermEs.mem_iff.mp he))

/-- Witness for `relay_zero_size_last_file`: a transfer of a one-byte file
followed by an empty file emits no `isLast` envelope, and the receiver
neither saves nor completes. -/
theorem relay_zero_size_last_file_witness :
    (∀ e ∈ senderRelayEnvs "t" [[5], []], e.isLast = false) ∧
    (runRelay ⟨some ⟨"t", 2, [], 0, false⟩, []⟩
      (senderRelayEnvs "t" [[5], []])).savedOut = [] ∧
    (runRelay ⟨some ⟨"t", 2, [], 0, false⟩, []⟩
      (senderRelayEnvs "t" [[5], []])).transfer.isSome = true := by
  have h := relay_zero_size_last_file "t" [[5], []] (by decide)
  refine ⟨h.2.1, ?_, ?_⟩
  · exact (h.2.2 _ (List.Perm.refl _) _).1
  · exact ((h.2.2 _ (List.Perm.refl _) _).2).trans rfl

structure RTransfer where
  peerId : String
  status : String

structure TResponse where
  targetId : String
  transferId : String
  accepted : Bool

def rejectTransfer (incomingTransfers : List (String × RTransfer))
    (transferId : String) :
    List (String × RTransfer) × List TResponse :=
  match mapGet incomingTransfers transferId with
  | none => (incomingTransfers, [])
  | some t => (mapDel incomingTransfers transferId, [⟨t.peerId, transferId, false⟩])

structure OutTransfer where
  peerId : String
  files : List Bytes
  status : String

inductive InitOut where
  | directFrames (transferId : String) (frames : List Frame)
  | relayEnvs (transferId : String) (envs : List RelayEnv)

def InitOut.tid : InitOut → String
  | .directFrames t _ => t
  | .relayEnvs t _ => t

def handleTransferResponse (outgoingTransfers : List (String × OutTransfer))
    (resp : TResponse) (useDirect : Bool) :
    List (String × OutTransfer) × List InitOut :=
  match mapGet outgoingTransfers resp.transferId with
  | none => (outgoingTransfers, [])
  | some t =>
    if !resp.accepted then
      (mapDel outgoingTransfers resp.transferId, [])
    else
      if useDirect then
        (outgoingTransfers,
          [.directFrames resp.transferId (senderFrames t.files)])
      else
        (outgoingTransfers,
          [.relayEnvs resp.transferId (senderRelayEnvs resp.transferId t.files)])

def runResponses (outgoingTransfers : List (String × OutTransfer)) :
    List (TResponse × Bool) → List (String × OutTransfer) × List InitOut
  | [] => (outgoingTransfers, [])
  | (r, d) :: rest =>
    ((runResponses (handleTransferResponse outgoingTransfers r d).1 rest).1,
      (handleTransferResponse outgoingTransfers r d).2 ++
        (runResponses (handleTransferResponse outgoingTransfers r d).1 rest).2)

lemma rejectTransfer_absent {m : List (String × RTransfer)} {tid : String}
    (h : mapGet m tid = none) :
    rejectTransfer m tid = (m, []) := by
  rw [rejectTransfer, h]

lemma rejectTransfer_present {m : List (String × RTransfer)} {tid : String}
    {t : RTransfer} (h : mapGet m tid = some t) :
    rejectTransfer m tid = (mapDel m tid, [⟨t.peerId, tid, false⟩]) := by
  rw [rejectTransfer, h]

lemma handleTransferResponse_absent {out : List (String × OutTransfer)}
    {r : TResponse} {d : Bool} (h : mapGet out r.transferId = none) :
    handleTransferResponse out r d = (out, []) := by
  rw [handleTransferResponse, h]

lemma handleTransferResponse_reject {out : List (String × OutTransfer)}
    {r : TResponse} {d : Bool} {t : OutTransfer}
    (hget : mapGet out r.transferId = some t) (hacc : r.accepted = false) :
    handleTransferResponse out r d = (mapDel out r.transferId, []) := by
  rw [handleTransferResponse, hget, hacc]
  rfl

lemma handleTransferResponse_key_none {out : List (String × OutTransfer)}
    {r : TResponse} {d : Bool} {tid : String}
    (h : mapGet out tid = none) :
    mapGet (handleTransferResponse out r d).1 tid = none := by
  rw [handleTransferResponse.eq_def]
  split
  · exact h
  · split
    · show mapGet (mapDel out r.transferId) tid = none
      rw [mapGet_del]
      by_cases htid : tid = r.transferId
      · rw [if_pos htid]
      · rw [if_neg htid]
        exact h
    · split
      · exact h
      · exact h

lemma handleTransferResponse_out_tid {out : List (String × OutTransfer)}
    {r : TResponse} {d : Bool} :
    ∀ o ∈ (handleTransferResponse out r d).2, o.tid = r.transferId := by
  intro o ho
  rw [handleTransferResponse.eq_def] at ho
  split at ho
  · simp at ho
  · split at ho
    · simp at ho
    · split at ho
      · have ho' : o ∈ [InitOut.directFrames r.transferId (senderFrames _)] := ho
        rw [List.mem_singleton] at ho'
        rw [ho']
        rfl
      · have ho' : o ∈ [InitOut.relayEnvs r.transferId (senderRelayEnvs r.transferId _)] := ho
        rw [List.mem_singleton] at ho'
        rw [ho']
        rfl

lemma runResponses_no_traffic {tid : String} :
    ∀ (resps : List (TResponse × Bool)) (out : List (String × OutTransfer)),
      mapGet out tid = none →
      mapGet (runResponses out resps).1 tid = none ∧
      ∀ o ∈ (runResponses out resps).2, o.tid ≠ tid := by
  intro resps
  induction resps with
  | nil =>
    intro out h
    refine ⟨h, ?_⟩
    intro o ho
    simp [runResponses] at ho
  | cons rd rest ih =>
    obtain ⟨r, d⟩ := rd
    intro out h
    have hstep := handleTransferResponse_key_none (r := r) (d := d) h
    have htail := ih (handleTransferResponse out r d).1 hstep
    refine ⟨htail.1, ?_⟩
    intro o ho
    have ho' : o ∈ (handleTransferResponse out r d).2 ++
        (runResponses (handleTransferResponse out r d).1 rest).2 := ho
    rcases List.mem_append.mp ho' with h1 | h1
    · have hot := handleTransferResponse_out_tid o h1
      by_cases hrt : r.transferId = tid
      · have hz := @handleTransferResponse_absent out r d (by rw [hrt]; exact h)
        rw [hz] at h1
        simp at h1
      · rw [hot]
        exact hrt
    · exact htail.2 o h1

/-- C7: rejecting a pending incoming transfer sends exactly one
transfer-response envelope with `accepted = false` to the initiator and
deletes the recipient's record at once (a second reject sends nothing); on
the initiator, that response deletes the outgoing record with no output,
and no later sequence of transfer-response events ever produces a chunk
frame or relay-chunk envelope for that transfer. -/
theorem reject_transfer_no_chunk_traffic
    (incomingTransfers : List (String × RTransfer)) (tid : String)
    (t : RTransfer) (hin : mapGet incomingTransfers tid = some t)
    (outgoingTransfers : List (String × OutTransfer)) (d : Bool)
    (resps : List (TResponse × Bool)) :
    (rejectTransfer incomingTransfers tid).2 = [⟨t.peerId, tid, false⟩] ∧
    mapGet (rejectTransfer incomingTransfers tid).1 tid = none ∧
    (rejectTransfer (rejectTransfer incomingTransfers tid).1 tid).2 = [] ∧
    (handleTransferResponse outgoingTransfers ⟨t.peerId, tid, false⟩ d).2 = [] ∧
    mapGet (handleTransferResponse outgoingTransfers
      ⟨t.peerId, tid, false⟩ d).1 tid = none ∧
    (∀ o ∈ (runResponses (handleTransferResponse outgoingTransfers
        ⟨t.peerId, tid, false⟩ d).1 resps).2, InitOut.tid o ≠ tid) := by
  have h1 : rejectTransfer incomingTransfers tid
      = (mapDel incomingTransfers tid, [⟨t.peerId, tid, false⟩]) :=
    rejectTransfer_present hin
  have h2 : mapGet (rejectTransfer incomingTransfers tid).1 tid = none := by
    rw [h1]
    show mapGet (mapDel incomingTransfers tid) tid = none
    rw [mapGet_del, if_pos rfl]
  have h3 : (rejectTransfer (rejectTransfer incomingTransfers tid).1 tid).2
      = [] := by
    rw [rejectTransfer_absent h2]
  have h45 : (handleTransferResponse outgoingTransfers
        ⟨t.peerId, tid, false⟩ d).2 = [] ∧
      mapGet (handleTransferResponse outgoingTransfers
        ⟨t.peerId, tid, false⟩ d).1 tid = none := by
    cases hout : mapGet outgoingTransfers tid with
    | none =>
      have hout' : mapGet outgoingTransfers
          (TResponse.mk t.peerId tid false).transferId = none := hout
      rw [handleTransferResponse_absent hout']
      exact ⟨rfl, hout⟩
    | some u =>
      have hout' : mapGet outgoingTransfers
          (TResponse.mk t.peerId tid false).transferId = some u := hout
      rw [handleTransferResponse_reject hout' rfl]
      refine ⟨rfl, ?_⟩
      show mapGet (mapDel outgoingTransfers
        (TResponse.mk t.peerId tid false).transferId) tid = none
      rw [mapGet_del, if_pos rfl]
  refine ⟨by rw [h1], h2, h3, h45.1, h45.2, ?_⟩
  exact (runResponses_no_traffic resps _ h45.2).2

/-- Witness for `reject_transfer_no_chunk_traffic` at a one-entry pending
table: the reject emits one `accepted = false` response to peer p, the
initiator's handler emits nothing, and a later accepted response for the
same id produces no chunk output. -/
theorem reject_transfer_no_chunk_traffic_witness :
    mapGet [("x", (⟨"p", "pending"⟩ : RTransfer))] "x"
      = some ⟨"p", "pending"⟩ ∧
    (rejectTransfer [("x", ⟨"p", "pending"⟩)] "x").2
      = [⟨"p", "x", false⟩] ∧
    (handleTransferResponse [("x", (⟨"p", [[1]], "pending"⟩ : OutTransfer))]
      ⟨"p", "x", false⟩ true).2 = [] ∧
    (∀ o ∈ (runResponses (handleTransferResponse
        [("x", (⟨"p", [[1]], "pending"⟩ : OutTransfer))]
        ⟨"p", "x", false⟩ true).1
        [(⟨"p", "x", true⟩, true)]).2, InitOut.tid o ≠ "x") := by
  have h := reject_transfer_no_chunk_traffic
    [("x", ⟨"p", "pending"⟩)] "x" ⟨"p", "pending"⟩ rfl
    [("x", ⟨"p", [[1]], "pending"⟩)] true [(⟨"p", "x", true⟩, true)]
  exact ⟨rfl, h.1, h.2.2.2.1, h.2.2.2.2.2⟩

end PeerDrop
